import Mathlib

/-!
# terraform_output_order

A shallow embedding of `rules/terraform_output_order.go` (package `rules`): the rule that
reports `output` blocks of a Terraform file that are not declared in the lexicographic order
of their names.

Go strings and byte slices are finite byte sequences, modelled as lists of numbers. The
pieces of the Go runtime and of the libraries the rule calls (`sort`, `strings`, `hcl`) are
modelled by their documented behaviour; the host (`tflint.Runner`), the formatter
(`hclwrite.Format`) and the package helpers `IsRangeEmpty` and `ignoreFile` are parameters.
-/

namespace TerraformOutputOrder

/-! ## Go strings -/

/-- A Go `string` or `[]byte`: a finite sequence of bytes. -/
abbrev GoString := List Nat

/-- UTF-8 encoding of one code point, as the bytes of a Go string literal. -/
def utf8EncodeChar (c : Nat) : List Nat :=
  if c ≤ 0x7f then [c]
  else if c ≤ 0x7ff then [0xc0 + c / 64, 0x80 + c % 64]
  else if c ≤ 0xffff then [0xe0 + c / 4096, 0x80 + c / 64 % 64, 0x80 + c % 64]
  else [0xf0 + c / 262144, 0x80 + c / 4096 % 64, 0x80 + c / 64 % 64, 0x80 + c % 64]

/-- The bytes of a string literal of the source (Go source text is UTF-8). -/
def goString (s : String) : GoString :=
  s.data.flatMap fun c => utf8EncodeChar c.toNat

/-- Go's built-in `<` on strings: byte-wise lexicographic comparison. -/
def stringLess : GoString → GoString → Bool
  | [], [] => false
  | [], _ :: _ => true
  | _ :: _, [] => false
  | a :: as, b :: bs =>
    if a < b then true else if b < a then false else stringLess as bs

/-- The order `a ≤ b` on Go strings, that is `!(b < a)`. -/
def stringLE (a b : GoString) : Prop := stringLess b a = false

instance stringLE.decidable : DecidableRel stringLE :=
  fun a b => inferInstanceAs (Decidable (stringLess b a = false))

/-- Library `sort.StringsAreSorted(x)`: no element is less than its predecessor
(`sort.IsSorted` tests `Less(i, i-1)` for every `i > 0`). -/
def sort.StringsAreSorted : List GoString → Bool
  | a :: b :: rest => if stringLess b a then false else sort.StringsAreSorted (b :: rest)
  | _ => true

/-- Library `sort.Strings(x)`: sorts the slice in increasing order. The order on strings is
linear, so the sorted arrangement of a slice is unique (see `sort.Strings_unique`) and any
sorting algorithm computes it; here insertion sort. -/
def sort.Strings (x : List GoString) : List GoString :=
  x.insertionSort stringLE

/-- Library `strings.Join(elems, sep)`: the elements concatenated, `sep` between each two. -/
def strings.Join (elems : List GoString) (sep : GoString) : GoString :=
  sep.intercalate elems

/-! ## The `hcl` data the rule reads -/

/-- Library type `hcl.Pos`. -/
structure hcl.Pos where
  Line : Int
  Column : Int
  Byte : Int
deriving DecidableEq, Repr

/-- Library type `hcl.Range`. -/
structure hcl.Range where
  Filename : GoString
  Start : hcl.Pos
  End : hcl.Pos
deriving DecidableEq, Repr

/-- The zero value `hcl.Range{}`, the initial value of a `var r hcl.Range`. -/
def hcl.Range.zero : hcl.Range := ⟨[], ⟨0, 0, 0⟩, ⟨0, 0, 0⟩⟩

/-- Library `hcl.Range.SliceBytes(b)`: the part of `b` the range covers, both offsets
clamped into `[0, len(b)]` and the end never before the start. -/
def hcl.Range.SliceBytes (r : hcl.Range) (b : GoString) : GoString :=
  let len : Int := b.length
  let start : Int :=
    if r.Start.Byte < 0 then 0 else if r.Start.Byte > len then len else r.Start.Byte
  let stop : Int :=
    if r.End.Byte < 0 then 0 else if r.End.Byte > len then len else r.End.Byte
  let stop : Int := if stop < start then start else stop
  (b.drop start.toNat).take (stop - start).toNat

/-- Library type `hclsyntax.Block`, as far as the rule reads it: the block type (the field
`Type`, here `Typ`), the labels, and the values of its methods `DefRange()` (the header of
the block) and `Range()` (the whole block). -/
structure hclsyntax.Block where
  Typ : GoString
  Labels : List GoString
  DefRange : hcl.Range
  Range : hcl.Range
deriving DecidableEq, Repr

/-- Library type `hclsyntax.Body`: the top-level blocks in declaration order. -/
structure hclsyntax.Body where
  Blocks : List hclsyntax.Block
deriving DecidableEq, Repr

/-- Library type `hcl.File` of a native-syntax file: the parsed body and the source bytes. -/
structure hcl.File where
  Body : hclsyntax.Body
  Bytes : GoString
deriving DecidableEq, Repr

/-! ## The rule -/

/-- Library type `tflint.Severity`. -/
inductive tflint.Severity where
  | ERROR
  | WARNING
  | NOTICE
deriving DecidableEq, Repr

/-- The rule type: a struct without fields of its own. -/
structure TerraformOutputOrderRule where
deriving DecidableEq, Repr

/-- `NewTerraformOutputOrderRule`. -/
def NewTerraformOutputOrderRule : TerraformOutputOrderRule := {}

/-- `Name` returns the rule name. -/
def TerraformOutputOrderRule.Name (_r : TerraformOutputOrderRule) : GoString :=
  goString "terraform_output_order"

/-- `Enabled` returns whether the rule is enabled by default. -/
def TerraformOutputOrderRule.Enabled (_r : TerraformOutputOrderRule) : Bool := false

/-- `Severity` returns the rule severity. -/
def TerraformOutputOrderRule.Severity (_r : TerraformOutputOrderRule) : tflint.Severity :=
  tflint.Severity.NOTICE

/-- One call `runner.EmitIssue(rule, message, issueRange)`. -/
structure Issue where
  rule : TerraformOutputOrderRule
  message : GoString
  issueRange : hcl.Range
deriving DecidableEq, Repr

/-- The severity the host gives an issue: that of the rule it was emitted with. -/
def Issue.severity (i : Issue) : tflint.Severity := i.rule.Severity

/-- An error value handed back by the host. -/
structure HostError where
  msg : GoString
deriving DecidableEq, Repr

/-- What the rule calls and the file does not define: the package helper `IsRangeEmpty`
(missing from the sources at hand), the library formatter `hclwrite.Format`, and the error
the host answers a call of `EmitIssue` with, given the issues it received before. -/
structure Env where
  IsRangeEmpty : hcl.Range → Bool
  Format : GoString → GoString
  emitIssueError : List Issue → Issue → Option HostError

/-- The host side of `tflint.Runner` as the rule affects it: the issues received through
`EmitIssue` so far, oldest first. -/
structure Runner where
  issues : List Issue
deriving DecidableEq, Repr

/-- `runner.EmitIssue`: the host records the call and answers with an error or nil. -/
def Runner.EmitIssue (env : Env) (runner : Runner) (issue : Issue) :
    Runner × Option HostError :=
  ({ issues := runner.issues ++ [issue] }, env.emitIssueError runner.issues issue)

/-- The local variables of the first loop of `checkOutputOrder`. A Go map is read through
its lookup, which yields the empty string for a missing key. -/
structure LoopState where
  outputNames : List GoString
  firstOutputBlockRange : hcl.Range
  outputHclTxts : GoString → GoString

/-- The variables as declared before the loop. -/
def LoopState.init : LoopState :=
  { outputNames := [], firstOutputBlockRange := hcl.Range.zero, outputHclTxts := fun _ => [] }

/-- One pass of the body of `for _, block := range blocks`. The result is `none` when
`block.Labels[0]` is out of range (a run-time panic). -/
def loopBody (env : Env) (file : hcl.File) (st : LoopState) (block : hclsyntax.Block) :
    Option LoopState :=
  if block.Typ = goString "output" then
    let firstOutputBlockRange :=
      if env.IsRangeEmpty st.firstOutputBlockRange then block.DefRange
      else st.firstOutputBlockRange
    match block.Labels with
    | [] => none
    | outputName :: _ =>
      some
        { outputNames := st.outputNames ++ [outputName]
          firstOutputBlockRange := firstOutputBlockRange
          outputHclTxts := fun k =>
            if k = outputName then block.Range.SliceBytes file.Bytes
            else st.outputHclTxts k }
  else some st

/-- The loop `for _, block := range blocks` from a given state. -/
def scanBlocks (env : Env) (file : hcl.File) :
    List hclsyntax.Block → LoopState → Option LoopState
  | [], st => some st
  | block :: rest, st =>
    match loopBody env file st block with
    | none => none
    | some st' => scanBlocks env file rest st'

/-- Lines 65-80 of `checkOutputOrder`: the state after the loop over the file's blocks. -/
def collectOutputs (env : Env) (file : hcl.File) : Option LoopState :=
  scanBlocks env file file.Body.Blocks LoopState.init

/-- Lines 85-89: the names after `sort.Strings(outputNames)`. -/
def sortedOutputNames (st : LoopState) : List GoString :=
  sort.Strings st.outputNames

/-- Lines 86-89: `sortedOutputHclTxts`, one text appended per sorted name. -/
def sortedOutputHclTxts (st : LoopState) : List GoString :=
  (sortedOutputNames st).map st.outputHclTxts

/-- Line 90: the argument of `hclwrite.Format`. -/
def formatInput (st : LoopState) : GoString :=
  strings.Join (sortedOutputHclTxts st) (goString "\n\n")

/-- Lines 90-95: the issue handed to `runner.EmitIssue`. -/
def recommendation (env : Env) (r : TerraformOutputOrderRule) (st : LoopState) : Issue :=
  { rule := r
    message := goString "Recommended output order:\n" ++ env.Format (formatInput st)
    issueRange := st.firstOutputBlockRange }

/-- `checkOutputOrder(runner, file)`: the runner afterwards and the returned error, or
`none` when the call panics. -/
def checkOutputOrder (env : Env) (r : TerraformOutputOrderRule) (runner : Runner)
    (file : hcl.File) : Option (Runner × Option HostError) :=
  match collectOutputs env file with
  | none => none
  | some st =>
    if sort.StringsAreSorted st.outputNames then some (runner, none)
    else some (runner.EmitIssue env (recommendation env r st))

/-! ## Vocabulary of the properties -/

/-- The `output` blocks among a sequence of blocks, in the order of the sequence. -/
def outputsIn (blocks : List hclsyntax.Block) : List hclsyntax.Block :=
  blocks.filter fun b => b.Typ = goString "output"

/-- The top-level `output` blocks of a file, in declaration order. -/
def outputBlocks (file : hcl.File) : List hclsyntax.Block :=
  outputsIn file.Body.Blocks

/-- Every top-level `output` block has at least one label. -/
def OutputsLabelled (file : hcl.File) : Prop :=
  ∀ b ∈ outputBlocks file, b.Labels ≠ []

instance OutputsLabelled.decidable (file : hcl.File) : Decidable (OutputsLabelled file) :=
  inferInstanceAs (Decidable (∀ b ∈ outputBlocks file, b.Labels ≠ []))

/-- The name of a block: its first label (the empty string when it has none). -/
def blockName (b : hclsyntax.Block) : GoString := b.Labels.headD []

/-- The names of the top-level `output` blocks, in declaration order. -/
def outputNamesOf (file : hcl.File) : List GoString :=
  (outputBlocks file).map blockName

/-- The raw text of a block: the bytes of the file that its range covers. -/
def rawText (file : hcl.File) (b : hclsyntax.Block) : GoString :=
  b.Range.SliceBytes file.Bytes

/-- The last block of a sequence that bears the name `k`, if any. -/
def lastNamed (outs : List hclsyntax.Block) (k : GoString) : Option hclsyntax.Block :=
  outs.reverse.find? fun b => blockName b = k

/-- The text the suggestion shows for the name `k`: the raw text of the last `output` block
of the file that bears this name (the empty string when no `output` block does). -/
def keptText (file : hcl.File) (k : GoString) : GoString :=
  match lastNamed (outputBlocks file) k with
  | some b => rawText file b
  | none => []

/-- A sequence of names is non-decreasing in the byte-wise lexicographic order. -/
def NonDecreasing (names : List GoString) : Prop := names.Sorted stringLE

instance NonDecreasing.decidable (names : List GoString) : Decidable (NonDecreasing names) :=
  inferInstanceAs (Decidable (names.Sorted stringLE))

/-- The `output` blocks in the order of their names (equal names keep their order). -/
def sortByName (outs : List hclsyntax.Block) : List hclsyntax.Block :=
  outs.insertionSort fun a b => stringLE (blockName a) (blockName b)

/-! ## Sample inputs -/

/-- A helper `IsRangeEmpty` that takes the zero value for "no range recorded yet", an
identity formatter (the samples are already in canonical form), a host that accepts every
issue. -/
def sampleEnv : Env :=
  { IsRangeEmpty := fun r => decide (r = hcl.Range.zero)
    Format := fun src => src
    emitIssueError := fun _ _ => none }

/-- A range of the file `outputs.tf` within one line. -/
def sampleRange (line startByte len : Int) : hcl.Range :=
  { Filename := goString "outputs.tf"
    Start := { Line := line, Column := 1, Byte := startByte }
    End := { Line := line, Column := 1 + len, Byte := startByte + len } }

/-- A block that starts a line of `outputs.tf`, with a header of `hdr` bytes and `len`
bytes in all. -/
def sampleBlock (typ : String) (label : String) (line startByte hdr len : Int) :
    hclsyntax.Block :=
  { Typ := goString typ
    Labels := [goString label]
    DefRange := sampleRange line startByte hdr
    Range := sampleRange line startByte len }

/-- Two outputs out of order. -/
def zetaAlphaFile : hcl.File :=
  { Body := { Blocks :=
      [ sampleBlock "output" "zeta" 1 0 13 27,
        sampleBlock "output" "alpha" 2 28 14 28 ] }
    Bytes := goString
      "output \"zeta\" \x7b value = 1 \x7d\noutput \"alpha\" \x7b value = 2 \x7d\n" }

/-- Two outputs in order, after a variable. -/
def alphaBetaFile : hcl.File :=
  { Body := { Blocks :=
      [ sampleBlock "variable" "zone" 1 0 15 18,
        sampleBlock "output" "alpha" 2 19 14 28,
        sampleBlock "output" "beta" 3 48 13 27 ] }
    Bytes := goString
      "variable \"zone\" \x7b\x7d\noutput \"alpha\" \x7b value = 1 \x7d\noutput \"beta\" \x7b value = 2 \x7d\n" }

/-- Two outputs of the same name. -/
def dupDupFile : hcl.File :=
  { Body := { Blocks :=
      [ sampleBlock "output" "dup" 1 0 12 26,
        sampleBlock "output" "dup" 2 27 12 26 ] }
    Bytes := goString
      "output \"dup\" \x7b value = 1 \x7d\noutput \"dup\" \x7b value = 2 \x7d\n" }

/-- Variables only. -/
def variablesOnlyFile : hcl.File :=
  { Body := { Blocks :=
      [ sampleBlock "variable" "b" 1 0 12 15,
        sampleBlock "variable" "a" 2 16 12 15 ] }
    Bytes := goString "variable \"b\" \x7b\x7d\nvariable \"a\" \x7b\x7d\n" }

/-- One output after a variable. -/
def singleOutputFile : hcl.File :=
  { Body := { Blocks :=
      [ sampleBlock "variable" "b" 1 0 12 15,
        sampleBlock "output" "a" 2 16 10 24 ] }
    Bytes := goString "variable \"b\" \x7b\x7d\noutput \"a\" \x7b value = 1 \x7d\n" }

/-- An output out of order before two outputs of the same name and different texts. -/
def zDupDupFile : hcl.File :=
  { Body := { Blocks :=
      [ sampleBlock "output" "z" 1 0 10 24,
        sampleBlock "output" "dup" 2 25 12 26,
        sampleBlock "output" "dup" 3 52 12 26 ] }
    Bytes := goString
      "output \"z\" \x7b value = 0 \x7d\noutput \"dup\" \x7b value = 1 \x7d\noutput \"dup\" \x7b value = 2 \x7d\n" }

/-- Three outputs, the first in its place, the other two exchanged. -/
def aCBFile : hcl.File :=
  { Body := { Blocks :=
      [ sampleBlock "output" "a" 1 0 10 24,
        sampleBlock "output" "c" 2 25 10 24,
        sampleBlock "output" "b" 3 50 10 24 ] }
    Bytes := goString
      "output \"a\" \x7b value = 1 \x7d\noutput \"c\" \x7b value = 3 \x7d\noutput \"b\" \x7b value = 2 \x7d\n" }

/-- The file `zetaAlphaFile` with its outputs in the recommended order. -/
def alphaZetaFile : hcl.File :=
  { Body := { Blocks :=
      [ sampleBlock "output" "alpha" 1 0 14 28,
        sampleBlock "output" "zeta" 3 30 13 27 ] }
    Bytes := goString
      "output \"alpha\" \x7b value = 2 \x7d\n\noutput \"zeta\" \x7b value = 1 \x7d" }

/-- A runner that has received nothing yet. -/
def freshRunner : Runner := { issues := [] }

/-! ## The check of all files -/

/-- A non-nil value of type `error` as `Check` returns it: an error of the host handed on
as it is, or a `*multierror.Error` with its field `Errors`. -/
inductive CheckError where
  | host (err : HostError)
  | multi (Errors : List HostError)
deriving DecidableEq, Repr

/-- Library `multierror.Append(err, subErr)` for a `subErr` that is not nil and not itself a
`*multierror.Error`: a nil `err` starts a new list, a `*multierror.Error` has the error
appended to its list, any other error becomes the first entry of a new list. -/
def multierror.Append (err : Option CheckError) (subErr : HostError) : CheckError :=
  match err with
  | none => CheckError.multi [subErr]
  | some (CheckError.multi errs) => CheckError.multi (errs ++ [subErr])
  | some (CheckError.host e) => CheckError.multi [e, subErr]

/-- What `Check` calls besides `checkOutputOrder`: `runner.GetFiles()`, whose map is given
as its entries in the order in which `range` visits them (an order Go leaves open), and the
package helper `ignoreFile` (missing from the sources at hand). -/
structure FileSource where
  GetFiles : Except HostError (List (GoString × hcl.File))
  ignoreFile : GoString → TerraformOutputOrderRule → Bool

/-- The loop `for filename, file := range files` of `Check`, from a given runner and a
given value of `err`; `none` when a call of `checkOutputOrder` panics. -/
def checkFiles (env : Env) (ignoreFile : GoString → TerraformOutputOrderRule → Bool)
    (r : TerraformOutputOrderRule) :
    List (GoString × hcl.File) → Runner → Option CheckError →
      Option (Runner × Option CheckError)
  | [], runner, err => some (runner, err)
  | (filename, file) :: rest, runner, err =>
    if ignoreFile filename r then checkFiles env ignoreFile r rest runner err
    else
      match checkOutputOrder env r runner file with
      | none => none
      | some (runner', none) => checkFiles env ignoreFile r rest runner' err
      | some (runner', some subErr) =>
        checkFiles env ignoreFile r rest runner' (some (multierror.Append err subErr))

/-- `Check(runner)`: the runner afterwards and the returned error, or `none` when the call
panics. -/
def Check (env : Env) (src : FileSource) (r : TerraformOutputOrderRule) (runner : Runner) :
    Option (Runner × Option CheckError) :=
  match src.GetFiles with
  | Except.error err => some (runner, some (CheckError.host err))
  | Except.ok files => checkFiles env src.ignoreFile r files runner none

/-! ## Vocabulary of the properties of `Check` -/

/-- The issues `checkOutputOrder` emits for a file: none or one. -/
def issuesOf (env : Env) (r : TerraformOutputOrderRule) (file : hcl.File) : List Issue :=
  match collectOutputs env file with
  | none => []
  | some st => if sort.StringsAreSorted st.outputNames then [] else [recommendation env r st]

/-- The errors the host answers a sequence of `EmitIssue` calls with, after the issues of
`log`; a call answered with nil contributes nothing. -/
def emitErrors (env : Env) : List Issue → List Issue → List HostError
  | _, [] => []
  | log, issue :: rest =>
    (env.emitIssueError log issue).toList ++ emitErrors env (log ++ [issue]) rest

/-- The files among the entries that the ignore predicate does not exclude, in order. -/
def checkedFiles (ignoreFile : GoString → TerraformOutputOrderRule → Bool)
    (r : TerraformOutputOrderRule) (files : List (GoString × hcl.File)) : List hcl.File :=
  (files.filter fun entry => !ignoreFile entry.1 r).map Prod.snd

/-- The issues of the files that are not ignored, in the order of the entries. -/
def issuesOfFiles (env : Env) (ignoreFile : GoString → TerraformOutputOrderRule → Bool)
    (r : TerraformOutputOrderRule) (files : List (GoString × hcl.File)) : List Issue :=
  (checkedFiles ignoreFile r files).flatMap (issuesOf env r)

/-- The error value for a list of collected errors: nil for none, else the multi-error. -/
def combined (errs : List HostError) : Option CheckError :=
  match errs with
  | [] => none
  | e :: more => some (CheckError.multi (e :: more))

/-- The file with its `output` blocks alone. -/
def outputsOnly (file : hcl.File) : hcl.File :=
  { Body := { Blocks := outputBlocks file }, Bytes := file.Bytes }

/-! ## More sample inputs -/

/-- An `output` block without a label. -/
def unlabelledOutputFile : hcl.File :=
  { Body := { Blocks :=
      [ { Typ := goString "output"
          Labels := []
          DefRange := sampleRange 1 0 6
          Range := sampleRange 1 0 9 } ] }
    Bytes := goString "output \x7b\x7d\n" }

/-- The sample environment with a host that answers the first issue it receives with an
error and accepts the later ones. -/
def firstCallFailsEnv : Env :=
  { IsRangeEmpty := sampleEnv.IsRangeEmpty
    Format := sampleEnv.Format
    emitIssueError := fun log _ =>
      if log = [] then some { msg := goString "connection is shut down" } else none }

/-- Three files: two with outputs out of order, one in order. -/
def sampleFiles : List (GoString × hcl.File) :=
  [ (goString "outputs.tf", zetaAlphaFile),
    (goString "more_outputs.tf", aCBFile),
    (goString "sorted_outputs.tf", alphaBetaFile) ]

/-- A host that supplies `sampleFiles`, and an ignore predicate that excludes no file. -/
def sampleSource : FileSource :=
  { GetFiles := Except.ok sampleFiles
    ignoreFile := fun _ _ => false }

/-- A host that supplies `sampleFiles`, and an ignore predicate that excludes the file
`outputs.tf`. -/
def ignoringSource : FileSource :=
  { GetFiles := Except.ok sampleFiles
    ignoreFile := fun filename _ => filename = goString "outputs.tf" }

/-- A file whose `output` block has no label, and a file with outputs out of order. -/
def unlabelledThenUnsorted : List (GoString × hcl.File) :=
  [ (goString "broken.tf", unlabelledOutputFile),
    (goString "outputs.tf", zetaAlphaFile) ]

/-- A host that supplies the given files, and an ignore predicate that excludes no file. -/
def sourceOf (files : List (GoString × hcl.File)) : FileSource :=
  { GetFiles := Except.ok files
    ignoreFile := fun _ _ => false }

/-- A host that fails to supply the files. -/
def failingSource : FileSource :=
  { GetFiles := Except.error { msg := goString "failed to get files" }
    ignoreFile := fun _ _ => false }

/-! ## The order on Go strings -/

theorem stringLess_irrefl (a : GoString) : stringLess a a = false := by
  induction a with
  | nil => rfl
  | cons x xs ih => simp [stringLess, ih]

theorem stringLess_asymm : ∀ a b : GoString, stringLess a b = true → stringLess b a = false
  | [], [], h => by simp [stringLess] at h
  | [], _ :: _, _ => by simp [stringLess]
  | _ :: _, [], h => by simp [stringLess] at h
  | x :: xs, y :: ys, h => by
    simp only [stringLess] at h ⊢
    by_cases hxy : x < y
    · have hyx : ¬ y < x := by omega
      simp [hyx, hxy]
    · by_cases hyx : y < x
      · simp [hxy, hyx] at h
      · simp only [hxy, hyx, if_false] at h ⊢
        exact stringLess_asymm xs ys h

theorem stringLess_trans : ∀ a b c : GoString,
    stringLess a b = true → stringLess b c = true → stringLess a c = true
  | [], _, [], _, h2 => by cases ‹GoString› <;> simp [stringLess] at h2
  | [], _, _ :: _, _, _ => by simp [stringLess]
  | _ :: _, [], _, h1, _ => by simp [stringLess] at h1
  | _ :: _, _ :: _, [], _, h2 => by simp [stringLess] at h2
  | x :: xs, y :: ys, z :: zs, h1, h2 => by
    simp only [stringLess] at h1 h2 ⊢
    by_cases hxy : x < y
    · by_cases hyz : y < z
      · have : x < z := by omega
        simp [this]
      · by_cases hzy : z < y
        · simp [hyz, hzy] at h2
        · have : x < z := by omega
          simp [this]
    · by_cases hyx : y < x
      · simp [hxy, hyx] at h1
      · simp only [hxy, hyx, if_false] at h1
        have hxy' : x = y := by omega
        subst hxy'
        by_cases hxz : x < z
        · simp [hxz]
        · by_cases hzx : z < x
          · simp [hxz, hzx] at h2
          · simp only [hxz, hzx, if_false] at h2 ⊢
            exact stringLess_trans xs ys zs h1 h2

theorem stringLess_connex : ∀ a b : GoString,
    stringLess a b = false → stringLess b a = false → a = b
  | [], [], _, _ => rfl
  | [], _ :: _, h, _ => by simp [stringLess] at h
  | _ :: _, [], _, h => by simp [stringLess] at h
  | x :: xs, y :: ys, h1, h2 => by
    simp only [stringLess] at h1 h2
    by_cases hxy : x < y
    · simp [hxy] at h1
    · by_cases hyx : y < x
      · simp [hyx] at h2
      · simp only [hxy, hyx, if_false] at h1 h2
        have hxy' : x = y := by omega
        rw [hxy', stringLess_connex xs ys h1 h2]

theorem stringLE_refl (a : GoString) : stringLE a a := stringLess_irrefl a

theorem stringLE_of_less {a b : GoString} (h : stringLess a b = true) : stringLE a b :=
  stringLess_asymm a b h

theorem stringLE_total (a b : GoString) : stringLE a b ∨ stringLE b a := by
  unfold stringLE
  cases h : stringLess b a
  · exact Or.inl rfl
  · exact Or.inr (stringLess_asymm b a h)

theorem stringLE_antisymm {a b : GoString} (h1 : stringLE a b) (h2 : stringLE b a) : a = b :=
  stringLess_connex a b h2 h1

theorem stringLE_trans {a b c : GoString} (h1 : stringLE a b) (h2 : stringLE b c) :
    stringLE a c := by
  unfold stringLE at *
  cases hca : stringLess c a
  · rfl
  · exfalso
    cases hab : stringLess a b
    · have hEq : a = b := stringLess_connex a b hab h1
      subst hEq
      rw [hca] at h2
      exact Bool.noConfusion h2
    · have hcb := stringLess_trans c a b hca hab
      rw [hcb] at h2
      exact Bool.noConfusion h2

instance stringLE.isTotal : IsTotal GoString stringLE := ⟨stringLE_total⟩

instance stringLE.isTrans : IsTrans GoString stringLE := ⟨fun _ _ _ => stringLE_trans⟩

instance stringLE.isAntisymm : IsAntisymm GoString stringLE := ⟨fun _ _ => stringLE_antisymm⟩

/-- The test of `sort.StringsAreSorted` on neighbours decides the order of the whole
sequence. -/
theorem sort.StringsAreSorted_iff (l : List GoString) :
    sort.StringsAreSorted l = true ↔ NonDecreasing l := by
  unfold NonDecreasing List.Sorted
  rw [← List.chain'_iff_pairwise]
  induction l with
  | nil => simp [sort.StringsAreSorted]
  | cons a t ih =>
    cases t with
    | nil => simp [sort.StringsAreSorted]
    | cons b rest =>
      rw [List.chain'_cons, ← ih]
      unfold stringLE
      cases h : stringLess b a <;> simp [sort.StringsAreSorted, h]

theorem sort.Strings_sorted (l : List GoString) : NonDecreasing (sort.Strings l) :=
  List.sorted_insertionSort stringLE l

theorem sort.Strings_perm (l : List GoString) : (sort.Strings l).Perm l :=
  List.perm_insertionSort stringLE l

/-- The sorted arrangement of a sequence of strings is unique: whatever algorithm
`sort.Strings` runs, its result is the one computed here. -/
theorem sort.Strings_unique (l s : List GoString) (hp : s.Perm l) (hs : NonDecreasing s) :
    s = sort.Strings l :=
  List.eq_of_perm_of_sorted (hp.trans (sort.Strings_perm l).symm) hs (sort.Strings_sorted l)

/-! ## The first loop -/

theorem outputsIn_cons_output {b : hclsyntax.Block} (h : b.Typ = goString "output")
    (rest : List hclsyntax.Block) : outputsIn (b :: rest) = b :: outputsIn rest := by
  simp [outputsIn, h]

theorem outputsIn_cons_other {b : hclsyntax.Block} (h : ¬ b.Typ = goString "output")
    (rest : List hclsyntax.Block) : outputsIn (b :: rest) = outputsIn rest := by
  simp [outputsIn, h]

theorem lastNamed_cons (b : hclsyntax.Block) (outs : List hclsyntax.Block) (k : GoString) :
    lastNamed (b :: outs) k =
      match lastNamed outs k with
      | some b' => some b'
      | none => if blockName b = k then some b else none := by
  unfold lastNamed
  rw [List.reverse_cons, List.find?_append]
  cases h : List.find? (fun b => decide (blockName b = k)) outs.reverse with
  | some b' => simp
  | none => by_cases hk : blockName b = k <;> simp [hk]

theorem lastNamed_mem {outs : List hclsyntax.Block} {k : GoString} {b : hclsyntax.Block}
    (h : lastNamed outs k = some b) : b ∈ outs ∧ blockName b = k := by
  unfold lastNamed at h
  have h1 := List.mem_of_find?_eq_some h
  have h2 := List.find?_some h
  exact ⟨List.mem_reverse.mp h1, by simpa using h2⟩

theorem lastNamed_isSome {outs : List hclsyntax.Block} {b : hclsyntax.Block} (h : b ∈ outs) :
    ∃ b', lastNamed outs (blockName b) = some b' := by
  unfold lastNamed
  cases hf : List.find? (fun c => decide (blockName c = blockName b)) outs.reverse with
  | some b' => exact ⟨b', rfl⟩
  | none =>
    rw [List.find?_eq_none] at hf
    have := hf b (List.mem_reverse.mpr h)
    simp at this

/-- The loop runs to its end on blocks whose `output` blocks all have a label; it then holds
the first labels of the `output` blocks in order, and for every name the raw text of the last
`output` block that bears it. -/
theorem scanBlocks_spec (env : Env) (file : hcl.File) :
    ∀ (blocks : List hclsyntax.Block) (st : LoopState),
      (∀ b ∈ outputsIn blocks, b.Labels ≠ []) →
      ∃ st', scanBlocks env file blocks st = some st' ∧
        st'.outputNames = st.outputNames ++ (outputsIn blocks).map blockName ∧
        ∀ k, st'.outputHclTxts k =
          match lastNamed (outputsIn blocks) k with
          | some b => rawText file b
          | none => st.outputHclTxts k
  | [], st, _ => ⟨st, rfl, by simp [outputsIn], fun k => by simp [outputsIn, lastNamed]⟩
  | b :: rest, st, hlab => by
    by_cases hb : b.Typ = goString "output"
    · rw [outputsIn_cons_output hb] at hlab ⊢
      have hne : b.Labels ≠ [] := hlab b (List.mem_cons_self _ _)
      obtain ⟨name, more, hl⟩ := List.exists_cons_of_ne_nil hne
      have hrest : ∀ c ∈ outputsIn rest, c.Labels ≠ [] :=
        fun c hc => hlab c (List.mem_cons_of_mem _ hc)
      have hname : blockName b = name := by simp [blockName, hl]
      obtain ⟨st', hrun, hnames, htxt⟩ := scanBlocks_spec env file rest
        { outputNames := st.outputNames ++ [name]
          firstOutputBlockRange :=
            if env.IsRangeEmpty st.firstOutputBlockRange then b.DefRange
            else st.firstOutputBlockRange
          outputHclTxts := fun k =>
            if k = name then b.Range.SliceBytes file.Bytes else st.outputHclTxts k } hrest
      refine ⟨st', ?_, ?_, ?_⟩
      · simp only [scanBlocks, loopBody, hb, if_true, hl]
        exact hrun
      · rw [hnames]
        simp [hname]
      · intro k
        rw [htxt k, lastNamed_cons]
        cases lastNamed (outputsIn rest) k with
        | some b' => rfl
        | none =>
          by_cases hk : k = name
          · simp [hk, hname, rawText]
          · have hk' : ¬ blockName b = k := fun h => hk (by rw [← h, hname])
            simp [hk, hk']
    · rw [outputsIn_cons_other hb] at hlab ⊢
      obtain ⟨st', hrun, hnames, htxt⟩ := scanBlocks_spec env file rest st hlab
      refine ⟨st', ?_, hnames, htxt⟩
      simp only [scanBlocks, loopBody, hb, if_false]
      exact hrun

/-- A recorded range that `IsRangeEmpty` rejects is never replaced. -/
theorem scanBlocks_first_kept (env : Env) (file : hcl.File) :
    ∀ (blocks : List hclsyntax.Block) (st st' : LoopState),
      env.IsRangeEmpty st.firstOutputBlockRange = false →
      scanBlocks env file blocks st = some st' →
      st'.firstOutputBlockRange = st.firstOutputBlockRange
  | [], st, st', _, hrun => by
    simp only [scanBlocks, Option.some.injEq] at hrun
    rw [← hrun]
  | b :: rest, st, st', hne, hrun => by
    simp only [scanBlocks] at hrun
    cases hbody : loopBody env file st b with
    | none => simp [hbody] at hrun
    | some st1 =>
      simp only [hbody] at hrun
      have h1 : st1.firstOutputBlockRange = st.firstOutputBlockRange := by
        unfold loopBody at hbody
        by_cases hb : b.Typ = goString "output"
        · simp only [hb, if_true, hne] at hbody
          cases hl : b.Labels with
          | nil => simp [hl] at hbody
          | cons name more =>
            simp only [hl, Option.some.injEq] at hbody
            rw [← hbody]
            simp
        · simp only [hb, if_false, Option.some.injEq] at hbody
          rw [← hbody]
      rw [scanBlocks_first_kept env file rest st1 st' (by rw [h1]; exact hne) hrun, h1]

/-- From a state without a recorded range, the loop ends with the header range of the first
`output` block, provided `IsRangeEmpty` rejects that range. -/
theorem scanBlocks_first (env : Env) (file : hcl.File) :
    ∀ (blocks : List hclsyntax.Block) (st st' : LoopState) (b : hclsyntax.Block)
      (more : List hclsyntax.Block),
      env.IsRangeEmpty st.firstOutputBlockRange = true →
      outputsIn blocks = b :: more →
      env.IsRangeEmpty b.DefRange = false →
      scanBlocks env file blocks st = some st' →
      st'.firstOutputBlockRange = b.DefRange
  | [], _, _, _, _, _, hout, _, _ => by simp [outputsIn] at hout
  | c :: rest, st, st', b, more, hemp, hout, hb, hrun => by
    simp only [scanBlocks] at hrun
    cases hbody : loopBody env file st c with
    | none => simp [hbody] at hrun
    | some st1 =>
      simp only [hbody] at hrun
      by_cases hc : c.Typ = goString "output"
      · rw [outputsIn_cons_output hc] at hout
        have hcb : c = b := (List.cons.inj hout).1
        subst hcb
        have h1 : st1.firstOutputBlockRange = c.DefRange := by
          unfold loopBody at hbody
          simp only [hc, if_true, hemp] at hbody
          cases hl : c.Labels with
          | nil => simp [hl] at hbody
          | cons name tl =>
            simp only [hl, Option.some.injEq] at hbody
            rw [← hbody]
        rw [scanBlocks_first_kept env file rest st1 st' (by rw [h1]; exact hb) hrun, h1]
      · rw [outputsIn_cons_other hc] at hout
        have h1 : st1 = st := by
          unfold loopBody at hbody
          simp only [hc, if_false, Option.some.injEq] at hbody
          exact hbody.symm
        subst h1
        exact scanBlocks_first env file rest st1 st' b more hemp hout hb hrun

/-! ## The check of one file -/

/-- On a file whose `output` blocks all have a label the first loop ends normally, with the
names of the `output` blocks in declaration order and, for every name, the raw text of the
last `output` block that bears it. -/
theorem collectOutputs_spec (env : Env) (file : hcl.File) (hlab : OutputsLabelled file) :
    ∃ st, collectOutputs env file = some st ∧
      st.outputNames = outputNamesOf file ∧ st.outputHclTxts = keptText file := by
  obtain ⟨st, hrun, hnames, htxt⟩ :=
    scanBlocks_spec env file file.Body.Blocks LoopState.init hlab
  refine ⟨st, hrun, ?_, ?_⟩
  · rw [hnames]
    simp [LoopState.init, outputNamesOf, outputBlocks]
  · funext k
    rw [htxt k]
    rfl

/-- The two ways out of `checkOutputOrder` once the first loop has ended. -/
theorem checkOutputOrder_eq (env : Env) (r : TerraformOutputOrderRule) (runner : Runner)
    (file : hcl.File) (st : LoopState) (hst : collectOutputs env file = some st) :
    checkOutputOrder env r runner file =
      if sort.StringsAreSorted st.outputNames then some (runner, none)
      else some (runner.EmitIssue env (recommendation env r st)) := by
  simp only [checkOutputOrder, hst]

theorem checkOutputOrder_of_sorted (env : Env) (r : TerraformOutputOrderRule)
    (runner : Runner) (file : hcl.File) (hlab : OutputsLabelled file)
    (hs : NonDecreasing (outputNamesOf file)) :
    checkOutputOrder env r runner file = some (runner, none) := by
  obtain ⟨st, hst, hnames, _⟩ := collectOutputs_spec env file hlab
  rw [checkOutputOrder_eq env r runner file st hst, hnames,
    (sort.StringsAreSorted_iff _).mpr hs]
  rfl

theorem checkOutputOrder_of_unsorted (env : Env) (r : TerraformOutputOrderRule)
    (runner : Runner) (file : hcl.File) (hlab : OutputsLabelled file)
    (hns : ¬ NonDecreasing (outputNamesOf file)) :
    ∃ st, collectOutputs env file = some st ∧
      st.outputNames = outputNamesOf file ∧ st.outputHclTxts = keptText file ∧
      checkOutputOrder env r runner file =
        some (runner.EmitIssue env (recommendation env r st)) := by
  obtain ⟨st, hst, hnames, htxt⟩ := collectOutputs_spec env file hlab
  refine ⟨st, hst, hnames, htxt, ?_⟩
  have hf : sort.StringsAreSorted st.outputNames = false := by
    rw [hnames]
    cases h : sort.StringsAreSorted (outputNamesOf file)
    · rfl
    · exact absurd ((sort.StringsAreSorted_iff _).mp h) hns
  rw [checkOutputOrder_eq env r runner file st hst, hf]
  rfl

/-- Whatever name occurs among the `output` blocks, the text kept for it is the raw text of
the last `output` block of that name. -/
theorem keptText_of_name (file : hcl.File) (n : GoString) (hn : n ∈ outputNamesOf file) :
    ∃ b, lastNamed (outputBlocks file) n = some b ∧ b ∈ outputBlocks file ∧
      blockName b = n ∧ keptText file n = rawText file b := by
  obtain ⟨c, hc, hcn⟩ := List.mem_map.mp hn
  obtain ⟨b, hb⟩ := lastNamed_isSome hc
  rw [hcn] at hb
  obtain ⟨hmem, hname⟩ := lastNamed_mem hb
  refine ⟨b, hb, hmem, hname, ?_⟩
  rw [keptText, hb]

/-- When `output` blocks of one name have one raw text, the text kept for the name of an
`output` block is the raw text of that block. -/
theorem keptText_own (file : hcl.File)
    (hsame : ∀ b ∈ outputBlocks file, ∀ c ∈ outputBlocks file,
      blockName b = blockName c → rawText file b = rawText file c)
    (b : hclsyntax.Block) (hb : b ∈ outputBlocks file) :
    keptText file (blockName b) = rawText file b := by
  obtain ⟨c, _, hc, hcn, hct⟩ :=
    keptText_of_name file (blockName b) (List.mem_map.mpr ⟨b, hb, rfl⟩)
  rw [hct]
  exact hsame c hc b hb hcn

/-- Blocks of pairwise distinct names: one name, one block. -/
theorem same_text_of_nodup (file : hcl.File) (hnd : (outputNamesOf file).Nodup) :
    ∀ b ∈ outputBlocks file, ∀ c ∈ outputBlocks file,
      blockName b = blockName c → rawText file b = rawText file c := by
  intro b hb c hc hbc
  rw [List.inj_on_of_nodup_map hnd hb hc hbc]

/-- Sorting the blocks by name and sorting the names agree. -/
theorem map_blockName_sortByName (outs : List hclsyntax.Block) :
    (sortByName outs).map blockName = sort.Strings (outs.map blockName) := by
  unfold sortByName sort.Strings
  exact List.map_insertionSort _ stringLE blockName outs (fun _ _ _ _ => Iff.rfl)

theorem sortByName_perm (outs : List hclsyntax.Block) : (sortByName outs).Perm outs :=
  List.perm_insertionSort _ outs

/-- The texts appended when `output` blocks of one name have one raw text: the raw texts of
the blocks, taken in the order of their names. -/
theorem map_keptText_sorted (file : hcl.File)
    (hsame : ∀ b ∈ outputBlocks file, ∀ c ∈ outputBlocks file,
      blockName b = blockName c → rawText file b = rawText file c) :
    (sort.Strings (outputNamesOf file)).map (keptText file) =
      (sortByName (outputBlocks file)).map (rawText file) := by
  unfold outputNamesOf
  rw [← map_blockName_sortByName, List.map_map]
  apply List.map_congr_left
  intro b hb
  exact keptText_own file hsame b ((sortByName_perm _).mem_iff.mp hb)

/-! ## The properties -/

/-- C1: on a file whose `output` names (first labels, in declaration order) are not
non-decreasing in the byte-wise lexicographic order, `checkOutputOrder` calls `EmitIssue`
exactly once: the runner holds one issue more than before, emitted with the rule itself and
so of severity NOTICE. The names exist: every `output` block has a label. -/
theorem checkOutputOrder_unsorted_emits_one (env : Env) (r : TerraformOutputOrderRule)
    (runner : Runner) (file : hcl.File) (hlab : OutputsLabelled file)
    (hns : ¬ NonDecreasing (outputNamesOf file)) :
    ∃ issue : Issue,
      checkOutputOrder env r runner file =
        some ({ issues := runner.issues ++ [issue] }, env.emitIssueError runner.issues issue) ∧
      issue.rule = r ∧ issue.severity = tflint.Severity.NOTICE := by
  obtain ⟨st, _, _, _, hrun⟩ := checkOutputOrder_of_unsorted env r runner file hlab hns
  exact ⟨recommendation env r st, hrun, rfl, rfl⟩

theorem checkOutputOrder_unsorted_emits_one_witness :
    ∃ issue : Issue,
      checkOutputOrder sampleEnv NewTerraformOutputOrderRule freshRunner zetaAlphaFile =
        some ({ issues := freshRunner.issues ++ [issue] },
          sampleEnv.emitIssueError freshRunner.issues issue) ∧
      issue.rule = NewTerraformOutputOrderRule ∧ issue.severity = tflint.Severity.NOTICE :=
  checkOutputOrder_unsorted_emits_one sampleEnv NewTerraformOutputOrderRule freshRunner
    zetaAlphaFile (by decide) (by decide)

/-- C2: on a file whose `output` names are already non-decreasing, `checkOutputOrder`
returns nil and leaves the runner as it was (no issue), and a second run on the same file,
from the runner the first run left, again returns nil without an issue. -/
theorem checkOutputOrder_sorted_no_issue (env : Env) (r : TerraformOutputOrderRule)
    (runner : Runner) (file : hcl.File) (hlab : OutputsLabelled file)
    (hs : NonDecreasing (outputNamesOf file)) :
    checkOutputOrder env r runner file = some (runner, none) ∧
      ((checkOutputOrder env r runner file).bind fun first =>
        checkOutputOrder env r first.1 file) = some (runner, none) := by
  have h := checkOutputOrder_of_sorted env r runner file hlab hs
  refine ⟨h, ?_⟩
  rw [h]
  exact h

theorem checkOutputOrder_sorted_no_issue_witness :
    (outputNamesOf alphaBetaFile = [goString "alpha", goString "beta"] ∧
      checkOutputOrder sampleEnv NewTerraformOutputOrderRule freshRunner alphaBetaFile =
        some (freshRunner, none) ∧
      ((checkOutputOrder sampleEnv NewTerraformOutputOrderRule freshRunner alphaBetaFile).bind
        fun first => checkOutputOrder sampleEnv NewTerraformOutputOrderRule first.1
          alphaBetaFile) = some (freshRunner, none)) ∧
    (outputNamesOf dupDupFile = [goString "dup", goString "dup"] ∧
      checkOutputOrder sampleEnv NewTerraformOutputOrderRule freshRunner dupDupFile =
        some (freshRunner, none) ∧
      ((checkOutputOrder sampleEnv NewTerraformOutputOrderRule freshRunner dupDupFile).bind
        fun first => checkOutputOrder sampleEnv NewTerraformOutputOrderRule first.1
          dupDupFile) = some (freshRunner, none)) :=
  ⟨⟨by decide, checkOutputOrder_sorted_no_issue sampleEnv NewTerraformOutputOrderRule
      freshRunner alphaBetaFile (by decide) (by decide)⟩,
    ⟨by decide, checkOutputOrder_sorted_no_issue sampleEnv NewTerraformOutputOrderRule
      freshRunner dupDupFile (by decide) (by decide)⟩⟩

/-- C3: on an unsorted file the issue is located at the range recorded for the first
`output` block in declaration order, `DefRange()` of that block, and so at the range of no
later `output` block with a different range, whichever blocks are out of order. The helper
`IsRangeEmpty` is taken to accept the zero value and to reject the range of a parsed block. -/
theorem checkOutputOrder_issue_at_first_output (env : Env) (r : TerraformOutputOrderRule)
    (runner : Runner) (file : hcl.File) (first : hclsyntax.Block)
    (later : List hclsyntax.Block) (hlab : OutputsLabelled file)
    (hns : ¬ NonDecreasing (outputNamesOf file))
    (hfirst : outputBlocks file = first :: later)
    (hzero : env.IsRangeEmpty hcl.Range.zero = true)
    (hreal : env.IsRangeEmpty first.DefRange = false) :
    ∃ issue : Issue,
      checkOutputOrder env r runner file = some (runner.EmitIssue env issue) ∧
      issue.issueRange = first.DefRange ∧
      ∀ b ∈ later, b.DefRange ≠ first.DefRange → issue.issueRange ≠ b.DefRange := by
  obtain ⟨st, hst, _, _, hrun⟩ := checkOutputOrder_of_unsorted env r runner file hlab hns
  have hrange : st.firstOutputBlockRange = first.DefRange :=
    scanBlocks_first env file file.Body.Blocks LoopState.init st first later hzero hfirst
      hreal hst
  refine ⟨recommendation env r st, hrun, hrange, ?_⟩
  intro b _ hb
  show st.firstOutputBlockRange ≠ b.DefRange
  rw [hrange]
  exact fun h => hb h.symm

theorem checkOutputOrder_issue_at_first_output_witness :
    ∃ issue : Issue,
      checkOutputOrder sampleEnv NewTerraformOutputOrderRule freshRunner aCBFile =
        some (freshRunner.EmitIssue sampleEnv issue) ∧
      issue.issueRange = (sampleBlock "output" "a" 1 0 10 24).DefRange ∧
      ∀ b ∈ [sampleBlock "output" "c" 2 25 10 24, sampleBlock "output" "b" 3 50 10 24],
        b.DefRange ≠ (sampleBlock "output" "a" 1 0 10 24).DefRange →
        issue.issueRange ≠ b.DefRange :=
  checkOutputOrder_issue_at_first_output sampleEnv NewTerraformOutputOrderRule freshRunner
    aCBFile (sampleBlock "output" "a" 1 0 10 24)
    [sampleBlock "output" "c" 2 25 10 24, sampleBlock "output" "b" 3 50 10 24]
    (by decide) (by decide) (by decide) (by decide) (by decide)

/-- C4: on an unsorted file the names the suggestion is built from, one per text appended
and in the order of appending, are non-decreasing and a permutation of the `output` names
of the file: every name occurs as often as in the file. Each text appended is the raw text
of an `output` block of the name it is appended for. -/
theorem suggestion_names_sorted_perm (env : Env) (r : TerraformOutputOrderRule)
    (runner : Runner) (file : hcl.File) (hlab : OutputsLabelled file)
    (hns : ¬ NonDecreasing (outputNamesOf file)) :
    ∃ st, collectOutputs env file = some st ∧
      checkOutputOrder env r runner file =
        some (runner.EmitIssue env (recommendation env r st)) ∧
      NonDecreasing (sortedOutputNames st) ∧
      (sortedOutputNames st).Perm (outputNamesOf file) ∧
      (∀ n, (sortedOutputNames st).countP (fun m => m = n) =
        (outputNamesOf file).countP (fun m => m = n)) ∧
      List.Forall₂ (fun n t => ∃ b ∈ outputBlocks file, blockName b = n ∧ rawText file b = t)
        (sortedOutputNames st) (sortedOutputHclTxts st) := by
  obtain ⟨st, hst, hnames, htxt, hrun⟩ :=
    checkOutputOrder_of_unsorted env r runner file hlab hns
  have hperm : (sortedOutputNames st).Perm (outputNamesOf file) := by
    unfold sortedOutputNames
    rw [hnames]
    exact sort.Strings_perm _
  refine ⟨st, hst, hrun, sort.Strings_sorted _, hperm, fun n => hperm.countP_eq _, ?_⟩
  unfold sortedOutputHclTxts
  rw [List.forall₂_map_right_iff, List.forall₂_same]
  intro n hn
  obtain ⟨b, _, hb, hbn, hbt⟩ := keptText_of_name file n (hperm.mem_iff.mp hn)
  exact ⟨b, hb, hbn, by rw [htxt, hbt]⟩

theorem suggestion_names_sorted_perm_witness :
    ∃ st, collectOutputs sampleEnv aCBFile = some st ∧
      checkOutputOrder sampleEnv NewTerraformOutputOrderRule freshRunner aCBFile =
        some (freshRunner.EmitIssue sampleEnv
          (recommendation sampleEnv NewTerraformOutputOrderRule st)) ∧
      NonDecreasing (sortedOutputNames st) ∧
      (sortedOutputNames st).Perm (outputNamesOf aCBFile) ∧
      (∀ n, (sortedOutputNames st).countP (fun m => m = n) =
        (outputNamesOf aCBFile).countP (fun m => m = n)) ∧
      List.Forall₂
        (fun n t => ∃ b ∈ outputBlocks aCBFile, blockName b = n ∧ rawText aCBFile b = t)
        (sortedOutputNames st) (sortedOutputHclTxts st) :=
  suggestion_names_sorted_perm sampleEnv NewTerraformOutputOrderRule freshRunner aCBFile
    (by decide) (by decide)

/-- C5: round trip. When `checkOutputOrder` emits an issue for a file, its first loop has
produced the names that the suggestion follows, and every file whose `output` blocks are
declared in that suggested order passes the check: nil, and no issue. -/
theorem checkOutputOrder_roundtrip (env : Env) (r : TerraformOutputOrderRule)
    (runner : Runner) (file : hcl.File) (issue : Issue) (err : Option HostError)
    (hemit : checkOutputOrder env r runner file =
      some ({ issues := runner.issues ++ [issue] }, err)) :
    ∃ st, collectOutputs env file = some st ∧
      ∀ (again : hcl.File) (runner2 : Runner), OutputsLabelled again →
        outputNamesOf again = sortedOutputNames st →
        checkOutputOrder env r runner2 again = some (runner2, none) := by
  cases hst : collectOutputs env file with
  | none => simp [checkOutputOrder, hst] at hemit
  | some st =>
    refine ⟨st, rfl, ?_⟩
    intro again runner2 hlab2 hnames
    apply checkOutputOrder_of_sorted env r runner2 again hlab2
    rw [hnames]
    exact sort.Strings_sorted _

theorem checkOutputOrder_roundtrip_witness :
    (∃ st, collectOutputs sampleEnv zetaAlphaFile = some st ∧
      ∀ (again : hcl.File) (runner2 : Runner), OutputsLabelled again →
        outputNamesOf again = sortedOutputNames st →
        checkOutputOrder sampleEnv NewTerraformOutputOrderRule runner2 again =
          some (runner2, none)) ∧
    OutputsLabelled alphaZetaFile ∧
    outputNamesOf alphaZetaFile = sort.Strings (outputNamesOf zetaAlphaFile) ∧
    checkOutputOrder sampleEnv NewTerraformOutputOrderRule freshRunner alphaZetaFile =
      some (freshRunner, none) :=
  ⟨checkOutputOrder_roundtrip sampleEnv NewTerraformOutputOrderRule freshRunner zetaAlphaFile
      { rule := NewTerraformOutputOrderRule
        message := goString "Recommended output order:\n" ++ alphaZetaFile.Bytes
        issueRange := sampleRange 1 0 13 }
      none (by decide),
    by decide, by decide, by decide⟩

/-- C6: on an unsorted file whose `output` names are pairwise distinct, the text handed to
the formatter is the raw texts of the `output` blocks (the bytes of the file that the range
of each block covers), taken in the order of the names and joined by two line feeds, with no
separator before the first or after the last. -/
theorem formatInput_sorted_raw_texts (env : Env) (r : TerraformOutputOrderRule)
    (runner : Runner) (file : hcl.File) (hlab : OutputsLabelled file)
    (hns : ¬ NonDecreasing (outputNamesOf file)) (hnd : (outputNamesOf file).Nodup) :
    ∃ st, collectOutputs env file = some st ∧
      checkOutputOrder env r runner file =
        some (runner.EmitIssue env (recommendation env r st)) ∧
      (recommendation env r st).message =
        goString "Recommended output order:\n" ++ env.Format (formatInput st) ∧
      formatInput st =
        [10, 10].intercalate ((sortByName (outputBlocks file)).map (rawText file)) ∧
      (sortByName (outputBlocks file)).Perm (outputBlocks file) ∧
      NonDecreasing ((sortByName (outputBlocks file)).map blockName) := by
  obtain ⟨st, hst, hnames, htxt, hrun⟩ :=
    checkOutputOrder_of_unsorted env r runner file hlab hns
  refine ⟨st, hst, hrun, rfl, ?_, sortByName_perm _, ?_⟩
  · unfold formatInput sortedOutputHclTxts sortedOutputNames strings.Join
    rw [hnames, htxt, map_keptText_sorted file (same_text_of_nodup file hnd)]
    rfl
  · rw [map_blockName_sortByName]
    exact sort.Strings_sorted _

theorem formatInput_sorted_raw_texts_witness :
    (∃ st, collectOutputs sampleEnv zetaAlphaFile = some st ∧
      checkOutputOrder sampleEnv NewTerraformOutputOrderRule freshRunner zetaAlphaFile =
        some (freshRunner.EmitIssue sampleEnv
          (recommendation sampleEnv NewTerraformOutputOrderRule st)) ∧
      (recommendation sampleEnv NewTerraformOutputOrderRule st).message =
        goString "Recommended output order:\n" ++ sampleEnv.Format (formatInput st) ∧
      formatInput st =
        [10, 10].intercalate
          ((sortByName (outputBlocks zetaAlphaFile)).map (rawText zetaAlphaFile)) ∧
      (sortByName (outputBlocks zetaAlphaFile)).Perm (outputBlocks zetaAlphaFile) ∧
      NonDecreasing ((sortByName (outputBlocks zetaAlphaFile)).map blockName)) ∧
    outputNamesOf zetaAlphaFile = [goString "zeta", goString "alpha"] ∧
    [10, 10].intercalate
        ((sortByName (outputBlocks zetaAlphaFile)).map (rawText zetaAlphaFile)) =
      goString "output \"alpha\" \x7b value = 2 \x7d" ++ goString "\n\n" ++
        goString "output \"zeta\" \x7b value = 1 \x7d" :=
  ⟨formatInput_sorted_raw_texts sampleEnv NewTerraformOutputOrderRule freshRunner
      zetaAlphaFile (by decide) (by decide) (by decide),
    by decide, by decide⟩

/-- C7: on an unsorted file the message of the issue is the bytes of
"Recommended output order:" and a line feed, followed by what the formatter returns for the
reconstructed text (the texts kept for the sorted names, joined by two line feeds), and
nothing else. -/
theorem issue_message_format (env : Env) (r : TerraformOutputOrderRule)
    (runner : Runner) (file : hcl.File) (hlab : OutputsLabelled file)
    (hns : ¬ NonDecreasing (outputNamesOf file)) :
    ∃ issue : Issue,
      checkOutputOrder env r runner file = some (runner.EmitIssue env issue) ∧
      issue.message =
        goString "Recommended output order:\n" ++
          env.Format (strings.Join
            ((sort.Strings (outputNamesOf file)).map (keptText file)) (goString "\n\n")) := by
  obtain ⟨st, _, hnames, htxt, hrun⟩ :=
    checkOutputOrder_of_unsorted env r runner file hlab hns
  refine ⟨recommendation env r st, hrun, ?_⟩
  unfold recommendation formatInput sortedOutputHclTxts sortedOutputNames
  rw [hnames, htxt]

theorem issue_message_format_witness :
    ∃ issue : Issue,
      checkOutputOrder sampleEnv NewTerraformOutputOrderRule freshRunner zDupDupFile =
        some (freshRunner.EmitIssue sampleEnv issue) ∧
      issue.message =
        goString "Recommended output order:\n" ++
          sampleEnv.Format (strings.Join
            ((sort.Strings (outputNamesOf zDupDupFile)).map (keptText zDupDupFile))
            (goString "\n\n")) :=
  issue_message_format sampleEnv NewTerraformOutputOrderRule freshRunner zDupDupFile
    (by decide) (by decide)

/-- C8, as stated, fails: the file that holds exactly one top-level `output` block, one
without a label, makes `block.Labels[0]` go out of range, and `checkOutputOrder` panics
instead of returning nil. -/
theorem single_unlabelled_output_panics :
    (outputBlocks unlabelledOutputFile).length = 1 ∧
    (outputBlocks unlabelledOutputFile).map (fun b => b.Labels) = [[]] ∧
    checkOutputOrder sampleEnv NewTerraformOutputOrderRule freshRunner unlabelledOutputFile =
      none ∧
    checkOutputOrder sampleEnv NewTerraformOutputOrderRule freshRunner unlabelledOutputFile ≠
      some (freshRunner, none) := by
  decide

/-- C8, amended: on a file with no top-level `output` block, or with exactly one that has
at least one label (blocks of other kinds do not count), `checkOutputOrder` returns nil and
emits no issue. -/
theorem checkOutputOrder_at_most_one_output (env : Env) (r : TerraformOutputOrderRule)
    (runner : Runner) (file : hcl.File) (hlab : OutputsLabelled file)
    (hone : (outputBlocks file).length ≤ 1) :
    checkOutputOrder env r runner file = some (runner, none) := by
  apply checkOutputOrder_of_sorted env r runner file hlab
  unfold NonDecreasing outputNamesOf
  match h : outputBlocks file with
  | [] => simp
  | [b] => simp
  | _ :: _ :: _ => simp [h] at hone

theorem checkOutputOrder_at_most_one_output_witness :
    ((outputBlocks variablesOnlyFile).length = 0 ∧
      checkOutputOrder sampleEnv NewTerraformOutputOrderRule freshRunner variablesOnlyFile =
        some (freshRunner, none)) ∧
    ((outputBlocks singleOutputFile).length = 1 ∧
      checkOutputOrder sampleEnv NewTerraformOutputOrderRule freshRunner singleOutputFile =
        some (freshRunner, none)) :=
  ⟨⟨by decide, checkOutputOrder_at_most_one_output sampleEnv NewTerraformOutputOrderRule
      freshRunner variablesOnlyFile (by decide) (by decide)⟩,
    ⟨by decide, checkOutputOrder_at_most_one_output sampleEnv NewTerraformOutputOrderRule
      freshRunner singleOutputFile (by decide) (by decide)⟩⟩

/-- C9, as stated, fails: in a file with the outputs `z`, `dup`, `dup`, where the two
outputs named `dup` have different raw texts, the texts appended are the text of the later
`dup` twice and then the text of `z`; the raw text of the earlier `dup` is not among them. -/
theorem earlier_duplicate_text_lost :
    OutputsLabelled zDupDupFile ∧ ¬ NonDecreasing (outputNamesOf zDupDupFile) ∧
    outputNamesOf zDupDupFile = [goString "z", goString "dup", goString "dup"] ∧
    (outputBlocks zDupDupFile).map (rawText zDupDupFile) =
      [goString "output \"z\" \x7b value = 0 \x7d",
        goString "output \"dup\" \x7b value = 1 \x7d",
        goString "output \"dup\" \x7b value = 2 \x7d"] ∧
    ∃ st, collectOutputs sampleEnv zDupDupFile = some st ∧
      checkOutputOrder sampleEnv NewTerraformOutputOrderRule freshRunner zDupDupFile =
        some (freshRunner.EmitIssue sampleEnv
          (recommendation sampleEnv NewTerraformOutputOrderRule st)) ∧
      sortedOutputHclTxts st =
        [goString "output \"dup\" \x7b value = 2 \x7d",
          goString "output \"dup\" \x7b value = 2 \x7d",
          goString "output \"z\" \x7b value = 0 \x7d"] ∧
      goString "output \"dup\" \x7b value = 1 \x7d" ∉ sortedOutputHclTxts st := by
  refine ⟨by decide, by decide, by decide, by decide, ?_⟩
  obtain ⟨st, hst, hnames, htxt, hrun⟩ :=
    checkOutputOrder_of_unsorted sampleEnv NewTerraformOutputOrderRule freshRunner
      zDupDupFile (by decide) (by decide)
  have htexts : sortedOutputHclTxts st =
      [goString "output \"dup\" \x7b value = 2 \x7d",
        goString "output \"dup\" \x7b value = 2 \x7d",
        goString "output \"z\" \x7b value = 0 \x7d"] := by
    unfold sortedOutputHclTxts sortedOutputNames
    rw [hnames, htxt]
    decide
  refine ⟨st, hst, hrun, htexts, ?_⟩
  rw [htexts]
  decide

/-- C9, amended: on an unsorted file in which a name is borne by two or more `output`
blocks, the suggestion has one text for every block of that name, and each of these texts is
the raw text of the last-declared block of the name: that text is appended at least twice,
and the texts of the earlier blocks of the name are not used for it. -/
theorem duplicates_take_last_text (env : Env) (r : TerraformOutputOrderRule)
    (runner : Runner) (file : hcl.File) (n : GoString) (last : hclsyntax.Block)
    (hlab : OutputsLabelled file) (hns : ¬ NonDecreasing (outputNamesOf file))
    (hdup : 2 ≤ (outputNamesOf file).countP (fun m => m = n))
    (hlast : lastNamed (outputBlocks file) n = some last) :
    ∃ st, collectOutputs env file = some st ∧
      checkOutputOrder env r runner file =
        some (runner.EmitIssue env (recommendation env r st)) ∧
      (sortedOutputNames st).countP (fun m => m = n) =
        (outputNamesOf file).countP (fun m => m = n) ∧
      List.Forall₂ (fun m t => m = n → t = rawText file last)
        (sortedOutputNames st) (sortedOutputHclTxts st) ∧
      2 ≤ (sortedOutputHclTxts st).countP (fun t => t = rawText file last) := by
  obtain ⟨st, hst, hnames, htxt, hrun⟩ :=
    checkOutputOrder_of_unsorted env r runner file hlab hns
  have hperm : (sortedOutputNames st).Perm (outputNamesOf file) := by
    unfold sortedOutputNames
    rw [hnames]
    exact sort.Strings_perm _
  have hkept : keptText file n = rawText file last := by
    rw [keptText, hlast]
  refine ⟨st, hst, hrun, hperm.countP_eq _, ?_, ?_⟩
  · unfold sortedOutputHclTxts
    rw [List.forall₂_map_right_iff, List.forall₂_same]
    intro m _ hm
    rw [htxt, hm, hkept]
  · unfold sortedOutputHclTxts
    rw [List.countP_map]
    refine le_trans (le_of_le_of_eq hdup (hperm.countP_eq _).symm) ?_
    apply List.countP_mono_left
    intro m _ hm
    have hm' : m = n := by simpa using hm
    simp [htxt, hm', hkept]

theorem duplicates_take_last_text_witness :
    ∃ st, collectOutputs sampleEnv zDupDupFile = some st ∧
      checkOutputOrder sampleEnv NewTerraformOutputOrderRule freshRunner zDupDupFile =
        some (freshRunner.EmitIssue sampleEnv
          (recommendation sampleEnv NewTerraformOutputOrderRule st)) ∧
      (sortedOutputNames st).countP (fun m => m = goString "dup") =
        (outputNamesOf zDupDupFile).countP (fun m => m = goString "dup") ∧
      List.Forall₂
        (fun m t => m = goString "dup" →
          t = rawText zDupDupFile (sampleBlock "output" "dup" 3 52 12 26))
        (sortedOutputNames st) (sortedOutputHclTxts st) ∧
      2 ≤ (sortedOutputHclTxts st).countP
        (fun t => t = rawText zDupDupFile (sampleBlock "output" "dup" 3 52 12 26)) :=
  duplicates_take_last_text sampleEnv NewTerraformOutputOrderRule freshRunner zDupDupFile
    (goString "dup") (sampleBlock "output" "dup" 3 52 12 26)
    (by decide) (by decide) (by decide) (by decide)

/-- C10, as stated, fails: in the file with the outputs `z`, `dup`, `dup` the raw text of
the earlier `dup` block, an `output` block of the file, is not appended to the suggestion,
and the raw text of the later `dup` block, which the file holds once, is appended twice. -/
theorem appended_texts_differ_from_blocks :
    OutputsLabelled zDupDupFile ∧ ¬ NonDecreasing (outputNamesOf zDupDupFile) ∧
    ∃ st, collectOutputs sampleEnv zDupDupFile = some st ∧
      checkOutputOrder sampleEnv NewTerraformOutputOrderRule freshRunner zDupDupFile =
        some (freshRunner.EmitIssue sampleEnv
          (recommendation sampleEnv NewTerraformOutputOrderRule st)) ∧
      (goString "output \"dup\" \x7b value = 1 \x7d" ∈
          (outputBlocks zDupDupFile).map (rawText zDupDupFile) ∧
        goString "output \"dup\" \x7b value = 1 \x7d" ∉ sortedOutputHclTxts st) ∧
      ((sortedOutputHclTxts st).countP
          (fun t => t = goString "output \"dup\" \x7b value = 2 \x7d") = 2 ∧
        ((outputBlocks zDupDupFile).map (rawText zDupDupFile)).countP
          (fun t => t = goString "output \"dup\" \x7b value = 2 \x7d") = 1) ∧
      ¬ (sortedOutputHclTxts st).Perm ((outputBlocks zDupDupFile).map (rawText zDupDupFile)) := by
  refine ⟨by decide, by decide, ?_⟩
  obtain ⟨st, hst, hnames, htxt, hrun⟩ :=
    checkOutputOrder_of_unsorted sampleEnv NewTerraformOutputOrderRule freshRunner
      zDupDupFile (by decide) (by decide)
  have htexts : sortedOutputHclTxts st =
      (sort.Strings (outputNamesOf zDupDupFile)).map (keptText zDupDupFile) := by
    unfold sortedOutputHclTxts sortedOutputNames
    rw [hnames, htxt]
  have hnot : goString "output \"dup\" \x7b value = 1 \x7d" ∉ sortedOutputHclTxts st := by
    rw [htexts]
    decide
  refine ⟨st, hst, hrun, ⟨by decide, hnot⟩, ⟨?_, by decide⟩, ?_⟩
  · rw [htexts]
    decide
  · intro hperm
    exact hnot (hperm.mem_iff.mpr (by decide))

/-- C10, amended: on an unsorted file in which `output` blocks of one name have one raw
text (so whenever the `output` names are pairwise distinct), the texts appended to the
suggestion are, as a collection, the raw texts of the top-level `output` blocks: each as
often as the file holds it, and no other. -/
theorem appended_texts_perm_blocks (env : Env) (r : TerraformOutputOrderRule)
    (runner : Runner) (file : hcl.File) (hlab : OutputsLabelled file)
    (hns : ¬ NonDecreasing (outputNamesOf file))
    (hsame : ∀ b ∈ outputBlocks file, ∀ c ∈ outputBlocks file,
      blockName b = blockName c → rawText file b = rawText file c) :
    ∃ st, collectOutputs env file = some st ∧
      checkOutputOrder env r runner file =
        some (runner.EmitIssue env (recommendation env r st)) ∧
      (sortedOutputHclTxts st).Perm ((outputBlocks file).map (rawText file)) := by
  obtain ⟨st, hst, hnames, htxt, hrun⟩ :=
    checkOutputOrder_of_unsorted env r runner file hlab hns
  refine ⟨st, hst, hrun, ?_⟩
  unfold sortedOutputHclTxts sortedOutputNames
  rw [hnames, htxt, map_keptText_sorted file hsame]
  exact (sortByName_perm _).map _

theorem appended_texts_perm_blocks_witness :
    (outputNamesOf aCBFile).Nodup ∧
    ∃ st, collectOutputs sampleEnv aCBFile = some st ∧
      checkOutputOrder sampleEnv NewTerraformOutputOrderRule freshRunner aCBFile =
        some (freshRunner.EmitIssue sampleEnv
          (recommendation sampleEnv NewTerraformOutputOrderRule st)) ∧
      (sortedOutputHclTxts st).Perm ((outputBlocks aCBFile).map (rawText aCBFile)) :=
  ⟨by decide, appended_texts_perm_blocks sampleEnv NewTerraformOutputOrderRule freshRunner
    aCBFile (by decide) (by decide) (same_text_of_nodup aCBFile (by decide))⟩

/-! ## The loop and the blocks of other kinds -/

/-- The loop does on a sequence of blocks what it does on its `output` blocks alone. -/
theorem scanBlocks_outputsIn (env : Env) (file : hcl.File) :
    ∀ (blocks : List hclsyntax.Block) (st : LoopState),
      scanBlocks env file blocks st = scanBlocks env file (outputsIn blocks) st
  | [], _ => rfl
  | b :: rest, st => by
    by_cases hb : b.Typ = goString "output"
    · rw [outputsIn_cons_output hb]
      simp only [scanBlocks]
      cases loopBody env file st b with
      | none => rfl
      | some st1 => exact scanBlocks_outputsIn env file rest st1
    · rw [outputsIn_cons_other hb]
      simp only [scanBlocks, loopBody, hb, if_false]
      exact scanBlocks_outputsIn env file rest st

/-- The bytes of a file do not enter the loop through the file's own blocks. -/
theorem scanBlocks_bytes (env : Env) (file file2 : hcl.File) (hbytes : file.Bytes = file2.Bytes) :
    ∀ (blocks : List hclsyntax.Block) (st : LoopState),
      scanBlocks env file blocks st = scanBlocks env file2 blocks st
  | [], _ => rfl
  | b :: rest, st => by
    have hbody : loopBody env file st b = loopBody env file2 st b := by
      simp only [loopBody, hbytes]
    simp only [scanBlocks, hbody]
    cases loopBody env file2 st b with
    | none => rfl
    | some st1 => exact scanBlocks_bytes env file file2 hbytes rest st1

/-- An `output` block without a label stops the loop: `Labels[0]` is out of range. -/
theorem scanBlocks_unlabelled (env : Env) (file : hcl.File) :
    ∀ (blocks : List hclsyntax.Block) (st : LoopState),
      (∃ b ∈ outputsIn blocks, b.Labels = []) → scanBlocks env file blocks st = none
  | [], _, h => by
    obtain ⟨b, hb, _⟩ := h
    simp [outputsIn] at hb
  | c :: rest, st, h => by
    obtain ⟨b, hb, hl⟩ := h
    by_cases hc : c.Typ = goString "output"
    · rw [outputsIn_cons_output hc] at hb
      simp only [scanBlocks]
      cases hbody : loopBody env file st c with
      | none => rfl
      | some st1 =>
        have hne : c.Labels ≠ [] := by
          intro hcl
          simp [loopBody, hc, hcl] at hbody
        have hb' : b ∈ outputsIn rest := by
          rcases List.mem_cons.mp hb with hbc | hbr
          · exact absurd (hbc ▸ hl) hne
          · exact hbr
        exact scanBlocks_unlabelled env file rest st1 ⟨b, hb', hl⟩
    · rw [outputsIn_cons_other hc] at hb
      simp only [scanBlocks, loopBody, hc, if_false]
      exact scanBlocks_unlabelled env file rest st ⟨b, hb, hl⟩

theorem collectOutputs_unlabelled (env : Env) (file : hcl.File) (h : ¬ OutputsLabelled file) :
    collectOutputs env file = none := by
  apply scanBlocks_unlabelled
  unfold OutputsLabelled outputBlocks at h
  push_neg at h
  exact h

theorem collectOutputs_outputsOnly (env : Env) (file : hcl.File) :
    collectOutputs env (outputsOnly file) = collectOutputs env file := by
  unfold collectOutputs
  rw [scanBlocks_outputsIn env file file.Body.Blocks]
  exact (scanBlocks_bytes env file (outputsOnly file) rfl _ _).symm

/-- What `checkOutputOrder` does to any runner, in terms of the issues of the file. -/
theorem checkOutputOrder_issuesOf (env : Env) (r : TerraformOutputOrderRule)
    (runner : Runner) (file : hcl.File) (st : LoopState)
    (hst : collectOutputs env file = some st) :
    ∃ err, checkOutputOrder env r runner file =
        some ({ issues := runner.issues ++ issuesOf env r file }, err) ∧
      emitErrors env runner.issues (issuesOf env r file) = err.toList := by
  have hI : issuesOf env r file =
      if sort.StringsAreSorted st.outputNames then [] else [recommendation env r st] := by
    simp only [issuesOf, hst]
  rw [checkOutputOrder_eq env r runner file st hst, hI]
  cases hs : sort.StringsAreSorted st.outputNames with
  | true => exact ⟨none, by simp, by simp [emitErrors]⟩
  | false =>
    refine ⟨env.emitIssueError runner.issues (recommendation env r st), ?_, ?_⟩
    · simp [Runner.EmitIssue]
    · simp [emitErrors]

theorem checkOutputOrder_panics (env : Env) (r : TerraformOutputOrderRule)
    (runner : Runner) (file : hcl.File) (h : collectOutputs env file = none) :
    checkOutputOrder env r runner file = none := by
  simp only [checkOutputOrder, h]

/-! ## The loop over the files -/

theorem emitErrors_append (env : Env) :
    ∀ (first second log : List Issue),
      emitErrors env log (first ++ second) =
        emitErrors env log first ++ emitErrors env (log ++ first) second
  | [], second, log => by simp [emitErrors]
  | issue :: rest, second, log => by
    show (env.emitIssueError log issue).toList ++
        emitErrors env (log ++ [issue]) (rest ++ second) =
      ((env.emitIssueError log issue).toList ++ emitErrors env (log ++ [issue]) rest) ++
        emitErrors env (log ++ issue :: rest) second
    rw [emitErrors_append env rest second (log ++ [issue])]
    simp

theorem issuesOfFiles_nil (env : Env) (ign : GoString → TerraformOutputOrderRule → Bool)
    (r : TerraformOutputOrderRule) : issuesOfFiles env ign r [] = [] := rfl

theorem issuesOfFiles_cons_ignored (env : Env)
    (ign : GoString → TerraformOutputOrderRule → Bool) (r : TerraformOutputOrderRule)
    (filename : GoString) (file : hcl.File) (rest : List (GoString × hcl.File))
    (h : ign filename r = true) :
    issuesOfFiles env ign r ((filename, file) :: rest) = issuesOfFiles env ign r rest := by
  simp [issuesOfFiles, checkedFiles, h]

theorem issuesOfFiles_cons_checked (env : Env)
    (ign : GoString → TerraformOutputOrderRule → Bool) (r : TerraformOutputOrderRule)
    (filename : GoString) (file : hcl.File) (rest : List (GoString × hcl.File))
    (h : ign filename r = false) :
    issuesOfFiles env ign r ((filename, file) :: rest) =
      issuesOf env r file ++ issuesOfFiles env ign r rest := by
  simp [issuesOfFiles, checkedFiles, h]

theorem issuesOfFiles_append (env : Env)
    (ign : GoString → TerraformOutputOrderRule → Bool) (r : TerraformOutputOrderRule)
    (pre post : List (GoString × hcl.File)) :
    issuesOfFiles env ign r (pre ++ post) =
      issuesOfFiles env ign r pre ++ issuesOfFiles env ign r post := by
  simp [issuesOfFiles, checkedFiles]

/-- Appending errors one by one to a multi-error. -/
theorem foldl_Append_multi (errs : List HostError) :
    ∀ acc : List HostError,
      errs.foldl (fun a e => some (multierror.Append a e)) (some (CheckError.multi acc)) =
        some (CheckError.multi (acc ++ errs)) := by
  induction errs with
  | nil => intro l; simp
  | cons e more ih =>
    intro l
    have hstep : multierror.Append (some (CheckError.multi l)) e = CheckError.multi (l ++ [e]) :=
      rfl
    rw [List.foldl_cons, hstep, ih]
    simp

/-- Appending errors one by one to nil. -/
theorem foldl_Append_nil (errs : List HostError) :
    errs.foldl (fun a e => some (multierror.Append a e)) none = combined errs := by
  cases errs with
  | nil => rfl
  | cons e more =>
    have hstep : multierror.Append none e = CheckError.multi [e] := rfl
    rw [List.foldl_cons, hstep, foldl_Append_multi]
    rfl

/-- The loop of `Check` on files whose checks do not panic: every file that is not ignored
has its issues emitted, and every error the host answered is appended to `err`. -/
theorem checkFiles_spec (env : Env) (ign : GoString → TerraformOutputOrderRule → Bool)
    (r : TerraformOutputOrderRule) :
    ∀ (files : List (GoString × hcl.File)) (runner : Runner) (err : Option CheckError),
      (∀ file ∈ checkedFiles ign r files, OutputsLabelled file) →
      checkFiles env ign r files runner err =
        some ({ issues := runner.issues ++ issuesOfFiles env ign r files },
          (emitErrors env runner.issues (issuesOfFiles env ign r files)).foldl
            (fun a e => some (multierror.Append a e)) err)
  | [], runner, err, _ => by simp [checkFiles, issuesOfFiles_nil, emitErrors]
  | (filename, file) :: rest, runner, err, hlab => by
    cases hig : ign filename r with
    | true =>
      have hrest : ∀ f ∈ checkedFiles ign r rest, OutputsLabelled f := by
        intro f hf
        apply hlab f
        simpa [checkedFiles, hig] using hf
      rw [issuesOfFiles_cons_ignored env ign r filename file rest hig]
      simp only [checkFiles, hig, if_true]
      exact checkFiles_spec env ign r rest runner err hrest
    | false =>
      have hfile : OutputsLabelled file := by
        apply hlab file
        simp [checkedFiles, hig]
      have hrest : ∀ f ∈ checkedFiles ign r rest, OutputsLabelled f := by
        intro f hf
        apply hlab f
        simp only [checkedFiles, List.mem_map, List.mem_filter] at hf ⊢
        obtain ⟨entry, ⟨hmem, hni⟩, hsnd⟩ := hf
        exact ⟨entry, ⟨List.mem_cons_of_mem _ hmem, hni⟩, hsnd⟩
      obtain ⟨st, hst, _, _⟩ := collectOutputs_spec env file hfile
      obtain ⟨sub, hrun, herr⟩ := checkOutputOrder_issuesOf env r runner file st hst
      rw [issuesOfFiles_cons_checked env ign r filename file rest hig, emitErrors_append,
        herr]
      simp only [checkFiles, hig, hrun]
      cases sub with
      | none =>
        simp only [Bool.false_eq_true, if_false, Option.toList, List.nil_append]
        rw [checkFiles_spec env ign r rest _ err hrest]
        simp
      | some e =>
        simp only [Bool.false_eq_true, if_false, Option.toList, List.singleton_append,
          List.foldl_cons]
        rw [checkFiles_spec env ign r rest _ _ hrest]
        simp

/-- The loop of `Check` passes over the ignored files. -/
theorem checkFiles_filter (env : Env) (ign : GoString → TerraformOutputOrderRule → Bool)
    (r : TerraformOutputOrderRule) :
    ∀ (files : List (GoString × hcl.File)) (runner : Runner) (err : Option CheckError),
      checkFiles env ign r files runner err =
        checkFiles env ign r (files.filter fun entry => !ign entry.1 r) runner err
  | [], _, _ => rfl
  | (filename, file) :: rest, runner, err => by
    cases hig : ign filename r with
    | true =>
      simp only [List.filter_cons, hig, Bool.not_true, Bool.false_eq_true, if_false]
      simp only [checkFiles, hig, if_true]
      exact checkFiles_filter env ign r rest runner err
    | false =>
      simp only [List.filter_cons, hig, Bool.not_false, if_true]
      simp only [checkFiles, hig, Bool.false_eq_true, if_false]
      cases checkOutputOrder env r runner file with
      | none => rfl
      | some res =>
        obtain ⟨runner', sub⟩ := res
        cases sub with
        | none => exact checkFiles_filter env ign r rest runner' err
        | some e => exact checkFiles_filter env ign r rest runner' _

/-- The error a file's check returns is among the errors answered to the issues of all the
files. -/
theorem file_error_mem_emitErrors (env : Env)
    (ign : GoString → TerraformOutputOrderRule → Bool) (r : TerraformOutputOrderRule)
    (log : List Issue) (pre post : List (GoString × hcl.File)) (filename : GoString)
    (file : hcl.File) (runner' : Runner) (e : HostError)
    (hig : ign filename r = false)
    (hrun : checkOutputOrder env r { issues := log ++ issuesOfFiles env ign r pre } file =
      some (runner', some e)) :
    e ∈ emitErrors env log (issuesOfFiles env ign r (pre ++ (filename, file) :: post)) := by
  cases hst : collectOutputs env file with
  | none =>
    rw [checkOutputOrder_panics env r _ file hst] at hrun
    exact Option.noConfusion hrun
  | some st =>
    obtain ⟨sub, hres, herr⟩ :=
      checkOutputOrder_issuesOf env r { issues := log ++ issuesOfFiles env ign r pre } file
        st hst
    rw [hres] at hrun
    have hsub : sub = some e := by
      have h := Option.some.inj hrun
      exact (Prod.mk.inj h).2
    rw [issuesOfFiles_append, issuesOfFiles_cons_checked env ign r filename file post hig,
      emitErrors_append, emitErrors_append]
    apply List.mem_append_right
    apply List.mem_append_left
    rw [herr, hsub]
    simp

/-- Every error answered to the issues of the files is the error some file's check
returned. -/
theorem emitErrors_mem_file_error (env : Env)
    (ign : GoString → TerraformOutputOrderRule → Bool) (r : TerraformOutputOrderRule)
    (e : HostError) :
    ∀ (files : List (GoString × hcl.File)) (log : List Issue),
      (∀ file ∈ checkedFiles ign r files, OutputsLabelled file) →
      e ∈ emitErrors env log (issuesOfFiles env ign r files) →
      ∃ pre filename file post runner', files = pre ++ (filename, file) :: post ∧
        ign filename r = false ∧
        checkOutputOrder env r { issues := log ++ issuesOfFiles env ign r pre } file =
          some (runner', some e)
  | [], _, _, hmem => by simp [issuesOfFiles_nil, emitErrors] at hmem
  | (filename, file) :: rest, log, hlab, hmem => by
    cases hig : ign filename r with
    | true =>
      have hrest : ∀ f ∈ checkedFiles ign r rest, OutputsLabelled f := by
        intro f hf
        apply hlab f
        simpa [checkedFiles, hig] using hf
      rw [issuesOfFiles_cons_ignored env ign r filename file rest hig] at hmem
      obtain ⟨pre, fn, f, post, runner', hsplit, hfn, hrun⟩ :=
        emitErrors_mem_file_error env ign r e rest log hrest hmem
      refine ⟨(filename, file) :: pre, fn, f, post, runner', by rw [hsplit]; rfl, hfn, ?_⟩
      rw [issuesOfFiles_cons_ignored env ign r filename file pre hig]
      exact hrun
    | false =>
      have hfile : OutputsLabelled file := by
        apply hlab file
        simp [checkedFiles, hig]
      have hrest : ∀ f ∈ checkedFiles ign r rest, OutputsLabelled f := by
        intro f hf
        apply hlab f
        simp only [checkedFiles, List.mem_map, List.mem_filter] at hf ⊢
        obtain ⟨entry, ⟨hm, hni⟩, hsnd⟩ := hf
        exact ⟨entry, ⟨List.mem_cons_of_mem _ hm, hni⟩, hsnd⟩
      obtain ⟨st, hst, _, _⟩ := collectOutputs_spec env file hfile
      obtain ⟨sub, hres, herr⟩ := checkOutputOrder_issuesOf env r { issues := log } file st hst
      rw [issuesOfFiles_cons_checked env ign r filename file rest hig, emitErrors_append,
        herr] at hmem
      rcases List.mem_append.mp hmem with hhere | hlater
      · have hsub : sub = some e := by
          cases sub with
          | none => simp at hhere
          | some e' =>
            have : e = e' := by simpa using hhere
            rw [this]
        refine ⟨[], filename, file, rest, { issues := log ++ issuesOf env r file }, rfl,
          hig, ?_⟩
        rw [issuesOfFiles_nil, List.append_nil, hres, hsub]
      · obtain ⟨pre, fn, f, post, runner', hsplit, hfn, hrun⟩ :=
          emitErrors_mem_file_error env ign r e rest _ hrest hlater
        refine ⟨(filename, file) :: pre, fn, f, post, runner', by rw [hsplit]; rfl, hfn, ?_⟩
        rw [issuesOfFiles_cons_checked env ign r filename file pre hig, ← List.append_assoc]
        exact hrun

theorem checkFiles_congr (env : Env) (ign ign2 : GoString → TerraformOutputOrderRule → Bool)
    (r : TerraformOutputOrderRule) :
    ∀ (files : List (GoString × hcl.File)) (runner : Runner) (err : Option CheckError),
      (∀ entry ∈ files, ign entry.1 r = ign2 entry.1 r) →
      checkFiles env ign r files runner err = checkFiles env ign2 r files runner err
  | [], _, _, _ => rfl
  | (filename, file) :: rest, runner, err, h => by
    have hhead : ign filename r = ign2 filename r := h (filename, file) (List.mem_cons_self _ _)
    have hrest : ∀ entry ∈ rest, ign entry.1 r = ign2 entry.1 r :=
      fun entry hm => h entry (List.mem_cons_of_mem _ hm)
    simp only [checkFiles, hhead]
    cases ign2 filename r with
    | true => exact checkFiles_congr env ign ign2 r rest runner err hrest
    | false =>
      simp only [Bool.false_eq_true, if_false]
      cases checkOutputOrder env r runner file with
      | none => rfl
      | some res =>
        obtain ⟨runner', sub⟩ := res
        cases sub with
        | none => exact checkFiles_congr env ign ign2 r rest runner' err hrest
        | some e => exact checkFiles_congr env ign ign2 r rest runner' _ hrest

/-! ## The properties of `Check` and of the rule -/

/-- C11, as stated, fails: of two files that are not ignored, one with an `output` block
without a label and one with outputs out of order, the check of the first panics and takes
`Check` with it. In whichever order the loop visits the two, `Check` returns no value; when
the file without the label comes first, the other file, which has an issue of its own, is
never checked. -/
theorem Check_stops_at_a_panic :
    (∀ entry ∈ unlabelledThenUnsorted,
      (sourceOf unlabelledThenUnsorted).ignoreFile entry.1 NewTerraformOutputOrderRule =
        false) ∧
    checkOutputOrder sampleEnv NewTerraformOutputOrderRule freshRunner unlabelledOutputFile =
      none ∧
    (checkOutputOrder sampleEnv NewTerraformOutputOrderRule freshRunner zetaAlphaFile).map
        (fun res => (res.1.issues.length, res.2)) = some (1, none) ∧
    Check sampleEnv (sourceOf unlabelledThenUnsorted) NewTerraformOutputOrderRule freshRunner =
      none ∧
    Check sampleEnv (sourceOf unlabelledThenUnsorted.reverse) NewTerraformOutputOrderRule
      freshRunner = none := by
  decide

/-- C11, amended: when the host supplies the files and no check panics (every top-level
`output` block of every file that is not ignored has a label), `Check` runs
`checkOutputOrder` on every file that is not ignored, whatever errors the checks of other
files return: the runner receives the issues of all these files, and the value returned is
nil exactly when no check of a file returned an error, and otherwise the multi-error whose
list holds exactly the errors that the checks of the files returned (errors of the host
that are not multi-errors themselves). -/
theorem Check_attempts_every_file (env : Env) (src : FileSource)
    (r : TerraformOutputOrderRule) (runner : Runner) (files : List (GoString × hcl.File))
    (hfiles : src.GetFiles = Except.ok files)
    (hlab : ∀ file ∈ checkedFiles src.ignoreFile r files, OutputsLabelled file) :
    ∃ errs : List HostError,
      Check env src r runner =
        some ({ issues := runner.issues ++ issuesOfFiles env src.ignoreFile r files },
          match errs with
          | [] => none
          | e :: more => some (CheckError.multi (e :: more))) ∧
      errs = emitErrors env runner.issues (issuesOfFiles env src.ignoreFile r files) ∧
      ∀ e, e ∈ errs ↔
        ∃ pre filename file post runner', files = pre ++ (filename, file) :: post ∧
          src.ignoreFile filename r = false ∧
          checkOutputOrder env r
            { issues := runner.issues ++ issuesOfFiles env src.ignoreFile r pre } file =
              some (runner', some e) := by
  refine ⟨emitErrors env runner.issues (issuesOfFiles env src.ignoreFile r files), ?_, rfl, ?_⟩
  · simp only [Check, hfiles]
    rw [checkFiles_spec env src.ignoreFile r files runner none hlab, foldl_Append_nil]
    rfl
  · intro e
    constructor
    · exact emitErrors_mem_file_error env src.ignoreFile r e files runner.issues hlab
    · rintro ⟨pre, filename, file, post, runner', hsplit, hig, hrun⟩
      rw [hsplit]
      exact file_error_mem_emitErrors env src.ignoreFile r runner.issues pre post filename
        file runner' e hig hrun

theorem Check_attempts_every_file_witness :
    (∃ errs : List HostError,
      Check firstCallFailsEnv sampleSource NewTerraformOutputOrderRule freshRunner =
        some ({ issues := freshRunner.issues ++
                  issuesOfFiles firstCallFailsEnv sampleSource.ignoreFile
                    NewTerraformOutputOrderRule sampleFiles },
          match errs with
          | [] => none
          | e :: more => some (CheckError.multi (e :: more))) ∧
      errs = emitErrors firstCallFailsEnv freshRunner.issues
        (issuesOfFiles firstCallFailsEnv sampleSource.ignoreFile NewTerraformOutputOrderRule
          sampleFiles) ∧
      ∀ e, e ∈ errs ↔
        ∃ pre filename file post runner', sampleFiles = pre ++ (filename, file) :: post ∧
          sampleSource.ignoreFile filename NewTerraformOutputOrderRule = false ∧
          checkOutputOrder firstCallFailsEnv NewTerraformOutputOrderRule
            { issues := freshRunner.issues ++
                        issuesOfFiles firstCallFailsEnv sampleSource.ignoreFile
                          NewTerraformOutputOrderRule pre } file =
              some (runner', some e)) ∧
    (Check firstCallFailsEnv sampleSource NewTerraformOutputOrderRule freshRunner).map
        (fun res => (res.1.issues.map fun issue => issue.issueRange, res.2)) =
      some ([sampleRange 1 0 13, sampleRange 1 0 10],
        some (CheckError.multi [{ msg := goString "connection is shut down" }])) :=
  ⟨Check_attempts_every_file firstCallFailsEnv sampleSource NewTerraformOutputOrderRule
      freshRunner sampleFiles rfl (by decide),
    by decide⟩

/-- C13: when `GetFiles` returns an error, `Check` returns this error as it is; the call
ends normally and the runner has received no issue. -/
theorem Check_GetFiles_error (env : Env) (src : FileSource) (r : TerraformOutputOrderRule)
    (runner : Runner) (err : HostError) (hfiles : src.GetFiles = Except.error err) :
    Check env src r runner = some (runner, some (CheckError.host err)) := by
  simp only [Check, hfiles]

theorem Check_GetFiles_error_witness :
    Check sampleEnv failingSource NewTerraformOutputOrderRule freshRunner =
      some (freshRunner, some (CheckError.host { msg := goString "failed to get files" })) :=
  Check_GetFiles_error sampleEnv failingSource NewTerraformOutputOrderRule freshRunner
    { msg := goString "failed to get files" } rfl

/-- C14: `Check` never runs the order check on a file whose name the ignore predicate
accepts: its result, runner and error, is the result of `Check` on the files with the
ignored ones removed and nothing ignored, whatever the ignored files contain. -/
theorem Check_skips_ignored (env : Env) (src : FileSource) (r : TerraformOutputOrderRule)
    (runner : Runner) :
    Check env src r runner =
      Check env
        { GetFiles := src.GetFiles.map fun files =>
            files.filter fun entry => !src.ignoreFile entry.1 r
          ignoreFile := fun _ _ => false } r runner := by
  unfold Check
  cases hfiles : src.GetFiles with
  | error err => rfl
  | ok files =>
    show checkFiles env src.ignoreFile r files runner none =
      checkFiles env (fun _ _ => false) r
        (files.filter fun entry => !src.ignoreFile entry.1 r) runner none
    rw [checkFiles_filter env src.ignoreFile r files runner none]
    apply checkFiles_congr
    intro entry hentry
    have h := (List.mem_filter.mp hentry).2
    simpa using h

/-- C15: the metadata of the rule is fixed: `Name()` is "terraform_output_order",
`Enabled()` is false, `Severity()` is NOTICE, for every value of the rule. -/
theorem rule_metadata (r : TerraformOutputOrderRule) :
    r.Name = goString "terraform_output_order" ∧ r.Enabled = false ∧
      r.Severity = tflint.Severity.NOTICE :=
  ⟨rfl, rfl, rfl⟩

/-- The last block of a name, when the blocks after it bear other names. -/
theorem lastNamed_split (pre post : List hclsyntax.Block) (b : hclsyntax.Block)
    (n : GoString) (hb : blockName b = n) (hpost : ∀ c ∈ post, blockName c ≠ n) :
    lastNamed (pre ++ b :: post) n = some b := by
  unfold lastNamed
  rw [List.reverse_append, List.reverse_cons, List.append_assoc, List.find?_append]
  have hnone : List.find? (fun c => decide (blockName c = n)) post.reverse = none := by
    rw [List.find?_eq_none]
    intro c hc
    simpa using hpost c (List.mem_reverse.mp hc)
  rw [hnone]
  simp [hb]

theorem map_head?_of_labelled (outs : List hclsyntax.Block)
    (h : ∀ b ∈ outs, b.Labels ≠ []) :
    outs.map (fun b => b.Labels.head?) = (outs.map blockName).map some := by
  rw [List.map_map]
  apply List.map_congr_left
  intro b hb
  obtain ⟨name, more, hl⟩ := List.exists_cons_of_ne_nil (h b hb)
  simp [blockName, hl]

/-- The formatter returns text and no error, and `checkOutputOrder` has no error of its
own: whenever it returns an error it has emitted the issue, whose message holds what the
formatter returned for the reconstructed text, and the error is the one `EmitIssue` answered
that issue with. -/
theorem error_only_from_EmitIssue (env : Env) (r : TerraformOutputOrderRule)
    (runner runner' : Runner) (file : hcl.File) (e : HostError)
    (hrun : checkOutputOrder env r runner file = some (runner', some e)) :
    ∃ st, collectOutputs env file = some st ∧
      runner'.issues = runner.issues ++ [recommendation env r st] ∧
      (recommendation env r st).message =
        goString "Recommended output order:\n" ++ env.Format (formatInput st) ∧
      env.emitIssueError runner.issues (recommendation env r st) = some e := by
  cases hst : collectOutputs env file with
  | none =>
    rw [checkOutputOrder_panics env r runner file hst] at hrun
    exact Option.noConfusion hrun
  | some st =>
    rw [checkOutputOrder_eq env r runner file st hst] at hrun
    cases hs : sort.StringsAreSorted st.outputNames with
    | true => simp [hs] at hrun
    | false =>
      simp only [hs, Bool.false_eq_true, if_false, Runner.EmitIssue, Option.some.injEq,
        Prod.mk.injEq] at hrun
      refine ⟨st, rfl, ?_, rfl, hrun.2⟩
      rw [← hrun.1]

theorem error_only_from_EmitIssue_witness :
    ∃ st, collectOutputs firstCallFailsEnv zetaAlphaFile = some st ∧
      ({ issues :=
          [{ rule := NewTerraformOutputOrderRule
             message := goString "Recommended output order:\n" ++ alphaZetaFile.Bytes
             issueRange := sampleRange 1 0 13 }] } : Runner).issues =
        freshRunner.issues ++ [recommendation firstCallFailsEnv NewTerraformOutputOrderRule st] ∧
      (recommendation firstCallFailsEnv NewTerraformOutputOrderRule st).message =
        goString "Recommended output order:\n" ++ firstCallFailsEnv.Format (formatInput st) ∧
      firstCallFailsEnv.emitIssueError freshRunner.issues
          (recommendation firstCallFailsEnv NewTerraformOutputOrderRule st) =
        some { msg := goString "connection is shut down" } :=
  error_only_from_EmitIssue firstCallFailsEnv NewTerraformOutputOrderRule freshRunner
    { issues :=
        [{ rule := NewTerraformOutputOrderRule
           message := goString "Recommended output order:\n" ++ alphaZetaFile.Bytes
           issueRange := sampleRange 1 0 13 }] }
    zetaAlphaFile { msg := goString "connection is shut down" } (by decide)

/-- C16, as stated, fails: for the outputs `zeta`, `alpha` the issue is located at the
header range of the first block, bytes 0 to 13, while the raw text of that block is sliced
with its whole range, bytes 0 to 27; the two ranges cover different bytes. -/
theorem location_is_not_the_sliced_range :
    ∃ st, collectOutputs sampleEnv zetaAlphaFile = some st ∧
      checkOutputOrder sampleEnv NewTerraformOutputOrderRule freshRunner zetaAlphaFile =
        some (freshRunner.EmitIssue sampleEnv
          (recommendation sampleEnv NewTerraformOutputOrderRule st)) ∧
      (recommendation sampleEnv NewTerraformOutputOrderRule st).issueRange =
        sampleRange 1 0 13 ∧
      st.outputHclTxts (goString "zeta") =
        (sampleRange 1 0 27).SliceBytes zetaAlphaFile.Bytes ∧
      (outputBlocks zetaAlphaFile).head? = some (sampleBlock "output" "zeta" 1 0 13 27) ∧
      (sampleBlock "output" "zeta" 1 0 13 27).Range = sampleRange 1 0 27 ∧
      sampleRange 1 0 13 ≠ sampleRange 1 0 27 ∧
      (sampleRange 1 0 13).SliceBytes zetaAlphaFile.Bytes = goString "output \"zeta\"" ∧
      (sampleRange 1 0 27).SliceBytes zetaAlphaFile.Bytes =
        goString "output \"zeta\" \x7b value = 1 \x7d" := by
  obtain ⟨st, hst, _, htxt, hrun⟩ :=
    checkOutputOrder_of_unsorted sampleEnv NewTerraformOutputOrderRule freshRunner
      zetaAlphaFile (by decide) (by decide)
  have hrange : st.firstOutputBlockRange = sampleRange 1 0 13 :=
    scanBlocks_first sampleEnv zetaAlphaFile zetaAlphaFile.Body.Blocks LoopState.init st
      (sampleBlock "output" "zeta" 1 0 13 27) [sampleBlock "output" "alpha" 2 28 14 28]
      (by decide) (by decide) (by decide) hst
  refine ⟨st, hst, hrun, hrange, ?_, by decide, by decide, by decide, by decide, by decide⟩
  rw [htxt]
  decide

/-- C16, amended: an entry has two ranges. On an unsorted file the issue is located at the
header range `DefRange()` of the first `output` block, while the raw text kept for the name
of that block (no later block bearing the same name) is sliced from the file with its whole
range `Range()`. -/
theorem location_DefRange_text_Range (env : Env) (r : TerraformOutputOrderRule)
    (runner : Runner) (file : hcl.File) (first : hclsyntax.Block)
    (later : List hclsyntax.Block) (hlab : OutputsLabelled file)
    (hns : ¬ NonDecreasing (outputNamesOf file))
    (hfirst : outputBlocks file = first :: later)
    (hzero : env.IsRangeEmpty hcl.Range.zero = true)
    (hreal : env.IsRangeEmpty first.DefRange = false)
    (hlater : ∀ c ∈ later, blockName c ≠ blockName first) :
    ∃ st, collectOutputs env file = some st ∧
      checkOutputOrder env r runner file =
        some (runner.EmitIssue env (recommendation env r st)) ∧
      (recommendation env r st).issueRange = first.DefRange ∧
      st.outputHclTxts (blockName first) = first.Range.SliceBytes file.Bytes := by
  obtain ⟨st, hst, _, htxt, hrun⟩ := checkOutputOrder_of_unsorted env r runner file hlab hns
  have hrange : st.firstOutputBlockRange = first.DefRange :=
    scanBlocks_first env file file.Body.Blocks LoopState.init st first later hzero hfirst
      hreal hst
  refine ⟨st, hst, hrun, hrange, ?_⟩
  have hlast : lastNamed (outputBlocks file) (blockName first) = some first := by
    rw [hfirst]
    exact lastNamed_split [] later first (blockName first) rfl hlater
  rw [htxt, keptText, hlast]
  rfl

theorem location_DefRange_text_Range_witness :
    ∃ st, collectOutputs sampleEnv aCBFile = some st ∧
      checkOutputOrder sampleEnv NewTerraformOutputOrderRule freshRunner aCBFile =
        some (freshRunner.EmitIssue sampleEnv
          (recommendation sampleEnv NewTerraformOutputOrderRule st)) ∧
      (recommendation sampleEnv NewTerraformOutputOrderRule st).issueRange =
        (sampleBlock "output" "a" 1 0 10 24).DefRange ∧
      st.outputHclTxts (blockName (sampleBlock "output" "a" 1 0 10 24)) =
        (sampleBlock "output" "a" 1 0 10 24).Range.SliceBytes aCBFile.Bytes :=
  location_DefRange_text_Range sampleEnv NewTerraformOutputOrderRule freshRunner aCBFile
    (sampleBlock "output" "a" 1 0 10 24)
    [sampleBlock "output" "c" 2 25 10 24, sampleBlock "output" "b" 3 50 10 24]
    (by decide) (by decide) (by decide) (by decide) (by decide) (by decide)

/-- C17: blocks of other kinds than `output` do not enter the result: `checkOutputOrder`
does on a file what it does on the file with its `output` blocks alone (the same runner
afterwards, so the same issue if any, and the same error), and the names it collects are
the first labels of the `output` blocks, in declaration order, when each has one (the loop
panics otherwise). -/
theorem other_blocks_do_not_matter (env : Env) (r : TerraformOutputOrderRule)
    (runner : Runner) (file : hcl.File) :
    checkOutputOrder env r runner file = checkOutputOrder env r runner (outputsOnly file) ∧
      (collectOutputs env file).map (fun st => st.outputNames.map some) =
        if OutputsLabelled file then
          some ((outputBlocks file).map fun b => b.Labels.head?)
        else none := by
  constructor
  · simp only [checkOutputOrder, collectOutputs_outputsOnly]
  · by_cases hlab : OutputsLabelled file
    · obtain ⟨st, hst, hnames, _⟩ := collectOutputs_spec env file hlab
      rw [hst, if_pos hlab, map_head?_of_labelled _ hlab]
      simp [hnames, outputNamesOf]
    · rw [collectOutputs_unlabelled env file hlab, if_neg hlab]
      rfl

/-- C18: when a name is borne by two `output` entries of an unsorted file, the check does
not fail by itself; it resolves the name to the last-declared entry bearing it: the text
kept under the name of the earlier entry is the raw text of the last one, and wherever the
name stands among the sorted names the suggestion has the raw text of the last one. -/
theorem shared_name_resolves_to_last (env : Env) (r : TerraformOutputOrderRule)
    (runner : Runner) (file : hcl.File) (n : GoString)
    (pre mid post : List hclsyntax.Block) (earlier last : hclsyntax.Block)
    (hlab : OutputsLabelled file) (hns : ¬ NonDecreasing (outputNamesOf file))
    (hsplit : outputBlocks file = pre ++ earlier :: (mid ++ last :: post))
    (hearlier : blockName earlier = n) (hlast : blockName last = n)
    (hpost : ∀ c ∈ post, blockName c ≠ n) :
    ∃ st, collectOutputs env file = some st ∧
      checkOutputOrder env r runner file =
        some (runner.EmitIssue env (recommendation env r st)) ∧
      st.outputHclTxts (blockName earlier) = rawText file last ∧
      n ∈ sortedOutputNames st ∧
      ∀ i : Nat, (sortedOutputNames st)[i]? = some n →
        (sortedOutputHclTxts st)[i]? = some (rawText file last) := by
  obtain ⟨st, hst, hnames, htxt, hrun⟩ := checkOutputOrder_of_unsorted env r runner file hlab hns
  have hfound : lastNamed (outputBlocks file) n = some last := by
    rw [hsplit, show pre ++ earlier :: (mid ++ last :: post) =
      (pre ++ earlier :: mid) ++ last :: post by simp]
    exact lastNamed_split _ post last n hlast hpost
  have hkept : keptText file n = rawText file last := by
    rw [keptText, hfound]
  have hmem : n ∈ sortedOutputNames st := by
    unfold sortedOutputNames
    rw [hnames]
    apply (sort.Strings_perm _).mem_iff.mpr
    unfold outputNamesOf
    rw [hsplit]
    exact List.mem_map.mpr ⟨last, by simp, hlast⟩
  refine ⟨st, hst, hrun, ?_, hmem, ?_⟩
  · rw [hearlier, htxt, hkept]
  · intro i hi
    unfold sortedOutputHclTxts
    rw [List.getElem?_map, hi, htxt]
    simp [hkept]

theorem shared_name_resolves_to_last_witness :
    ∃ st, collectOutputs sampleEnv zDupDupFile = some st ∧
      checkOutputOrder sampleEnv NewTerraformOutputOrderRule freshRunner zDupDupFile =
        some (freshRunner.EmitIssue sampleEnv
          (recommendation sampleEnv NewTerraformOutputOrderRule st)) ∧
      st.outputHclTxts (blockName (sampleBlock "output" "dup" 2 25 12 26)) =
        rawText zDupDupFile (sampleBlock "output" "dup" 3 52 12 26) ∧
      goString "dup" ∈ sortedOutputNames st ∧
      ∀ i : Nat, (sortedOutputNames st)[i]? = some (goString "dup") →
        (sortedOutputHclTxts st)[i]? =
          some (rawText zDupDupFile (sampleBlock "output" "dup" 3 52 12 26)) :=
  shared_name_resolves_to_last sampleEnv NewTerraformOutputOrderRule freshRunner zDupDupFile
    (goString "dup") [sampleBlock "output" "z" 1 0 10 24] [] []
    (sampleBlock "output" "dup" 2 25 12 26) (sampleBlock "output" "dup" 3 52 12 26)
    (by decide) (by decide) (by decide) (by decide) (by decide) (by decide)

/-- The loop reads the environment through `IsRangeEmpty` alone. -/
theorem scanBlocks_env (env env2 : Env) (file : hcl.File)
    (hemp : env.IsRangeEmpty = env2.IsRangeEmpty) :
    ∀ (blocks : List hclsyntax.Block) (st : LoopState),
      scanBlocks env file blocks st = scanBlocks env2 file blocks st
  | [], _ => rfl
  | b :: rest, st => by
    have hbody : loopBody env file st b = loopBody env2 file st b := by
      simp only [loopBody, hemp]
    simp only [scanBlocks, hbody]
    cases loopBody env2 file st b with
    | none => rfl
    | some st1 => exact scanBlocks_env env env2 file hemp rest st1

/-- The issue is read off the state through the names, the recorded range, and the texts
looked up for the names. -/
theorem recommendation_congr (env env2 : Env) (r : TerraformOutputOrderRule)
    (st st2 : LoopState) (hfmt : env.Format = env2.Format)
    (hnames : st.outputNames = st2.outputNames)
    (hrange : st.firstOutputBlockRange = st2.firstOutputBlockRange)
    (htxt : ∀ n ∈ st.outputNames, st.outputHclTxts n = st2.outputHclTxts n) :
    recommendation env r st = recommendation env2 r st2 := by
  have htexts : sortedOutputHclTxts st = sortedOutputHclTxts st2 := by
    unfold sortedOutputHclTxts sortedOutputNames
    rw [← hnames]
    apply List.map_congr_left
    intro n hn
    exact htxt n ((sort.Strings_perm _).mem_iff.mp hn)
  unfold recommendation formatInput
  rw [hfmt, htexts, hrange]

/-- The issues a check adds to the runner, or the panic, come from the first loop alone. -/
theorem checkOutputOrder_new_issues (env : Env) (r : TerraformOutputOrderRule)
    (runner : Runner) (file : hcl.File) :
    (checkOutputOrder env r runner file).map
        (fun res => res.1.issues.drop runner.issues.length) =
      (collectOutputs env file).map fun _ => issuesOf env r file := by
  cases hst : collectOutputs env file with
  | none => rw [checkOutputOrder_panics env r runner file hst]; rfl
  | some st =>
    obtain ⟨sub, hrun, _⟩ := checkOutputOrder_issuesOf env r runner file st hst
    rw [hrun]
    simp

/-- C19: the issue of a file depends on the file alone. Two runs of `checkOutputOrder` on
files with the same blocks and the same bytes, with the same formatter and the same helper
`IsRangeEmpty`, add the same issue to their runners (same message, same location) or none,
or panic both, whatever the runners received before and whatever the host answers; and the
issue is read off the lookup table only through the texts looked up for the collected
names. -/
theorem checkOutputOrder_depends_on_file_only (env env2 : Env) (r : TerraformOutputOrderRule)
    (runner runner2 : Runner) (file file2 : hcl.File)
    (hfmt : env.Format = env2.Format) (hemp : env.IsRangeEmpty = env2.IsRangeEmpty)
    (hblocks : file.Body.Blocks = file2.Body.Blocks) (hbytes : file.Bytes = file2.Bytes) :
    (checkOutputOrder env r runner file).map
        (fun res => res.1.issues.drop runner.issues.length) =
      (checkOutputOrder env2 r runner2 file2).map
        (fun res => res.1.issues.drop runner2.issues.length) ∧
    ∀ st st2 : LoopState, st.outputNames = st2.outputNames →
      st.firstOutputBlockRange = st2.firstOutputBlockRange →
      (∀ n ∈ st.outputNames, st.outputHclTxts n = st2.outputHclTxts n) →
      recommendation env r st = recommendation env2 r st2 := by
  refine ⟨?_, fun st st2 h1 h2 h3 => recommendation_congr env env2 r st st2 hfmt h1 h2 h3⟩
  have hfile : file = file2 := by
    cases file with
    | mk body bytes =>
      cases file2 with
      | mk body2 bytes2 =>
        cases body
        cases body2
        simp only at hblocks hbytes
        rw [hblocks, hbytes]
  subst hfile
  have hcollect : collectOutputs env file = collectOutputs env2 file :=
    scanBlocks_env env env2 file hemp _ _
  have hissues : issuesOf env r file = issuesOf env2 r file := by
    unfold issuesOf
    rw [← hcollect]
    cases collectOutputs env file with
    | none => rfl
    | some st =>
      simp only
      rw [recommendation_congr env env2 r st st hfmt rfl rfl (fun _ _ => rfl)]
  rw [checkOutputOrder_new_issues, checkOutputOrder_new_issues, hcollect, hissues]

theorem checkOutputOrder_depends_on_file_only_witness :
    (checkOutputOrder sampleEnv NewTerraformOutputOrderRule freshRunner zetaAlphaFile).map
        (fun res => res.1.issues.drop freshRunner.issues.length) =
      (checkOutputOrder firstCallFailsEnv NewTerraformOutputOrderRule
          { issues :=
              [{ rule := NewTerraformOutputOrderRule
                 message := goString "Recommended output order:\n"
                 issueRange := sampleRange 1 0 10 }] }
          zetaAlphaFile).map
        (fun res => res.1.issues.drop
          ({ issues :=
              [{ rule := NewTerraformOutputOrderRule
                 message := goString "Recommended output order:\n"
                 issueRange := sampleRange 1 0 10 }] } : Runner).issues.length) ∧
    ∀ st st2 : LoopState, st.outputNames = st2.outputNames →
      st.firstOutputBlockRange = st2.firstOutputBlockRange →
      (∀ n ∈ st.outputNames, st.outputHclTxts n = st2.outputHclTxts n) →
      recommendation sampleEnv NewTerraformOutputOrderRule st =
        recommendation firstCallFailsEnv NewTerraformOutputOrderRule st2 :=
  checkOutputOrder_depends_on_file_only sampleEnv firstCallFailsEnv
    NewTerraformOutputOrderRule freshRunner _ zetaAlphaFile zetaAlphaFile rfl rfl rfl rfl

/-- C20: the access `block.Labels[0]` is in bounds, and `checkOutputOrder` returns, exactly
when every top-level `output` block of the file has a label; on the file that holds one
`output` block without a label the access is out of range and the check panics instead of
returning. -/
theorem Labels_access_in_bounds (env : Env) (r : TerraformOutputOrderRule)
    (runner : Runner) (file : hcl.File) :
    ((∃ st, collectOutputs env file = some st) ↔ OutputsLabelled file) ∧
    ((∃ res, checkOutputOrder env r runner file = some res) ↔ OutputsLabelled file) ∧
    (outputBlocks unlabelledOutputFile).map (fun b => b.Labels) = [[]] ∧
    checkOutputOrder env r runner unlabelledOutputFile = none := by
  have hloop : (∃ st, collectOutputs env file = some st) ↔ OutputsLabelled file := by
    constructor
    · rintro ⟨st, hst⟩
      by_contra hlab
      rw [collectOutputs_unlabelled env file hlab] at hst
      exact Option.noConfusion hst
    · intro hlab
      obtain ⟨st, hst, _, _⟩ := collectOutputs_spec env file hlab
      exact ⟨st, hst⟩
  refine ⟨hloop, ?_, by decide, ?_⟩
  · constructor
    · rintro ⟨res, hres⟩
      by_contra hlab
      rw [checkOutputOrder_panics env r runner file
        (collectOutputs_unlabelled env file hlab)] at hres
      exact Option.noConfusion hres
    · intro hlab
      obtain ⟨st, hst⟩ := hloop.mpr hlab
      obtain ⟨sub, hrun, _⟩ := checkOutputOrder_issuesOf env r runner file st hst
      exact ⟨_, hrun⟩
  · exact checkOutputOrder_panics env r runner unlabelledOutputFile
      (collectOutputs_unlabelled env unlabelledOutputFile (by decide))

end TerraformOutputOrder
